import Mathlib

/-!
# Verification of the StylusPort Anchor frontend (parser + normalizer)

This file gives a shallow embedding, in Lean 4, of the data model and the
algorithms of the `anchor_parser` and `anchor_normalizer` crates, and proves
or refutes the specification claims about them.

Conventions:
* Rust `String` is embedded as Lean `String`; character-level algorithms are
  written over `List Char` (`¬`-ASCII subtleties of Rust byte indexing are
  irrelevant for the inputs considered here and are noted where they arise).
* Rust `Vec<T>` is `List T`, `Option<T>` is `Option T`,
  `Result<T, E>` is `Except E T`.
* Imperative loops that push into vectors become folds / maps; the
  two-phase "collect edits, then apply" pattern of the source is embedded
  as the equivalent per-element functional update and the equivalence with
  the collect-then-apply order is noted at each definition.
-/

namespace Stylus

/-! ## Character/string utilities mirroring the Rust standard library -/

/-- Model of Rust `char::is_whitespace` restricted to the characters that can
appear in the inputs of this development (ASCII whitespace). -/
def isWs (c : Char) : Bool :=
  c = ' ' ∨ c = '\t' ∨ c = '\n' ∨ c = '\r'

/-- Model of Rust `str::trim` on a character list: remove leading and
trailing whitespace. -/
def trimL (s : List Char) : List Char :=
  ((s.dropWhile isWs).reverse.dropWhile isWs).reverse

/-- `trimL` lifted to `String`. -/
def trimS (s : String) : String :=
  ⟨trimL s.data⟩

/-- Model of Rust `str::find(char)`: index of the first occurrence. -/
def findIdx (c : Char) (s : List Char) : Option Nat :=
  s.findIdx? (· = c)

/-! ## Parser-side domain model (`anchor_parser::model`) -/

/-- `anchor_parser::model::account::Constraint`. -/
structure Constraint where
  constraint_type : String
  value : Option String
deriving DecidableEq, Repr

/-- `Constraint::with_value`. -/
def Constraint.with_value (t v : String) : Constraint := ⟨t, some v⟩

/-- `Constraint::without_value`. -/
def Constraint.without_value (t : String) : Constraint := ⟨t, none⟩

/-- `anchor_parser::model::account::AccountField`. -/
structure AccountField where
  name : String
  ty : String
  constraints : List Constraint
deriving DecidableEq, Repr

/-- `anchor_parser::model::account::Account` (an account-validation struct). -/
structure Account where
  name : String
  visibility : String
  fields : List AccountField
deriving DecidableEq, Repr

/-- `anchor_parser::model::account::RawAccountField`. -/
structure RawAccountField where
  name : String
  ty : String
  visibility : String
deriving DecidableEq, Repr

/-- `anchor_parser::model::account::RawAccount`. -/
structure RawAccount where
  name : String
  visibility : String
  fields : List RawAccountField
deriving DecidableEq, Repr

/-- `anchor_parser::model::instruction::Parameter`. -/
structure Parameter where
  name : String
  ty : String
  is_context : Bool
deriving DecidableEq, Repr

/-- `anchor_parser::model::instruction::Instruction`. -/
structure Instruction where
  name : String
  visibility : String
  parameters : List Parameter
  return_type : Option String
  context_type : Option String
deriving DecidableEq, Repr

/-- `anchor_parser::model::program::ProgramModule`. -/
structure ProgramModule where
  name : String
  visibility : String
  instructions : List Instruction
deriving DecidableEq, Repr

/-- `anchor_parser::model::program::Program`. -/
structure Program where
  program_modules : List ProgramModule
  account_structs : List Account
  raw_accounts : List RawAccount
  source_path : Option String
deriving DecidableEq, Repr

/-- `Program::find_account_struct`. -/
def Program.find_account_struct (p : Program) (name : String) : Option Account :=
  p.account_structs.find? (fun a => a.name = name)

/-! ## The attribute constraint scanner (`convert.rs::process_account_constraints`)

The body of `process_account_constraints`, after the content between the
outermost parentheses has been extracted, scans the content character by
character.  We embed the scanner state (`constraints`, `current`, `depth`) and
the per-character transition exactly as in the source `match`. -/

/-- Scanner state of the loop in `process_account_constraints`:
the accumulated segments, the current segment buffer, and the bracket depth
(an `i32` in the source; embedded as `Int` since it may go negative). -/
structure CScanSt where
  segs : List (List Char)
  current : List Char
  depth : Int
deriving DecidableEq, Repr

/-- One character step of the scanner in `process_account_constraints`:
openers bump the depth and are kept, closers drop it and are kept, a comma at
depth 0 pushes the trimmed current segment when it is non-empty (and only then
clears the buffer), every other character is appended to the buffer. -/
def cstep (st : CScanSt) (c : Char) : CScanSt :=
  if c = '(' ∨ c = '[' ∨ c = '{' then
    { st with depth := st.depth + 1, current := st.current ++ [c] }
  else if c = ')' ∨ c = ']' ∨ c = '}' then
    { st with depth := st.depth - 1, current := st.current ++ [c] }
  else if c = ',' ∧ st.depth = 0 then
    -- the source tests `!current.trim().is_empty()` and pushes; the branches
    -- are written here with the test inverted
    if trimL st.current = [] then st
    else { st with segs := st.segs ++ [trimL st.current], current := [] }
  else { st with current := st.current ++ [c] }

/-- The segment list produced by the scanner loop of
`process_account_constraints`, including the final
`if !current.trim().is_empty()` push (test inverted as in `cstep`). -/
def scanSegs (content : List Char) : List (List Char) :=
  let st := content.foldl cstep ⟨[], [], 0⟩
  st.segs ++ (if trimL st.current = [] then [] else [trimL st.current])

/-- The per-segment constraint parse of `process_account_constraints`: split at
the first `=` into trimmed name and trimmed verbatim value, or a value-less
constraint when there is no `=`. -/
def parseSeg (seg : List Char) : Constraint :=
  match findIdx '=' seg with
  | some idx =>
      Constraint.with_value ⟨trimL (seg.take idx)⟩ ⟨trimL (seg.drop (idx + 1))⟩
  | none => Constraint.without_value ⟨seg⟩

/-- The content-level part of `process_account_constraints`: the ordered
constraint list parsed from the raw argument text of an `#[account(...)]`
attribute. -/
def parse_constraint_content (content : String) : List Constraint :=
  (scanSegs content.data).map parseSeg

/-! ### Spec-side reformulation of the constraint split (the refinement target
of claim C4).  Modelled from the spec's words: split on commas only at depth
0, trim each resulting segment, keep the non-empty ones, and split each at its
first `=`. -/

/-- Spec-side splitter state: raw (untrimmed) segments, current buffer,
depth. -/
structure SpecSplitSt where
  segs : List (List Char)
  current : List Char
  depth : Int
deriving DecidableEq, Repr

/-- Spec-side split step: like the scanner but a depth-0 comma always ends the
current raw segment. -/
def sstep (st : SpecSplitSt) (c : Char) : SpecSplitSt :=
  if c = '(' ∨ c = '[' ∨ c = '{' then
    { st with depth := st.depth + 1, current := st.current ++ [c] }
  else if c = ')' ∨ c = ']' ∨ c = '}' then
    { st with depth := st.depth - 1, current := st.current ++ [c] }
  else if c = ',' ∧ st.depth = 0 then
    { st with segs := st.segs ++ [st.current], current := [] }
  else { st with current := st.current ++ [c] }

/-- Raw depth-0 comma split of the content (spec-side, empties kept). -/
def specSplitRaw (content : List Char) : List (List Char) :=
  let st := content.foldl sstep ⟨[], [], 0⟩
  st.segs ++ [st.current]

/-- The constraint list as the spec describes it: depth-aware comma split,
trim, drop empties, split each segment at its first `=`. -/
def spec_constraint_split (content : String) : List Constraint :=
  (((specSplitRaw content.data).map trimL).filter (· ≠ [])).map parseSeg

/-! ## Canonical type rendering (`convert.rs::format_type`)

`format_type` renders a `syn::Type` to its token-stream string and then
normalizes it through a fixed chain of `str::replace` calls followed by
`split_whitespace().join(" ")`.  Rust's `str::replace` substitutes every
non-overlapping occurrence of the pattern, scanning left to right; we embed it
with an explicit fuel argument (the string length) so that it stays
kernel-computable. -/

/-- Fueled core of Rust `str::replace` on character lists: at each position,
if the pattern is a prefix, emit the replacement and skip the pattern,
otherwise keep the character.  Fuel bounds the recursion; `replaceL` supplies
`s.length`, which is enough because every step consumes at least one
character (patterns used here are non-empty). -/
def replaceFuel (pat rep : List Char) : Nat → List Char → List Char
  | 0, s => s
  | _ + 1, [] => []
  | n + 1, c :: rest =>
    if pat.isPrefixOf (c :: rest) then
      rep ++ replaceFuel pat rep n (rest.drop (pat.length - 1))
    else c :: replaceFuel pat rep n rest

/-- Rust `str::replace` on character lists. -/
def replaceL (s pat rep : List Char) : List Char :=
  replaceFuel pat rep s.length s

/-- Rust `str::replace` on strings. -/
def replaceS (s pat rep : String) : String :=
  ⟨replaceL s.data pat.data rep.data⟩

/-- Rust `str::split_whitespace` on a character list: maximal runs of
non-whitespace characters. -/
def splitWsL (s : List Char) : List (List Char) :=
  (s.splitOnP isWs).filter (· ≠ [])

/-- The string-level normalization chain of `format_type`: the 24 `replace`
calls (in source order) followed by `split_whitespace().collect().join(" ")`. -/
def format_type_str (raw : String) : String :=
  let i1 := replaceS raw " : " ":"
  let i2 := replaceS i1 ": " ":"
  let i3 := replaceS i2 " :" ":"
  let i4 := replaceS i3 " < " "<"
  let i5 := replaceS i4 "< " "<"
  let i6 := replaceS i5 " <" "<"
  let i7 := replaceS i6 " > " ">"
  let i8 := replaceS i7 "> " ">"
  let i9 := replaceS i8 " >" ">"
  let i10 := replaceS i9 " ( " "("
  let i11 := replaceS i10 "( " "("
  let i12 := replaceS i11 " (" "("
  let i13 := replaceS i12 " ) " ")"
  let i14 := replaceS i13 ") " ")"
  let i15 := replaceS i14 " )" ")"
  let i16 := replaceS i15 " [ " "["
  let i17 := replaceS i16 "[ " "["
  let i18 := replaceS i17 " [" "["
  let i19 := replaceS i18 " ] " "]"
  let i20 := replaceS i19 "] " "]"
  let i21 := replaceS i20 " ]" "]"
  let i22 := replaceS i21 " , " ","
  let i23 := replaceS i22 ", " ","
  let i24 := replaceS i23 " ," ","
  ⟨List.intercalate [' '] (splitWsL i24.data)⟩

/-! ## The `syn` syntax-tree view consumed by the converter

The converter reads `syn` types only through a small structural view:
path types (a list of segments, each an identifier with optional
angle-bracketed generic arguments), reference types, and "anything else".
Lists inside the inductive family are encoded first-order (`Segs`,
`GenArgs`) so that all functions below are structurally recursive and
kernel-computable. -/

mutual

/-- View of `syn::Type` (the variants inspected by the converter). -/
inductive SynType where
  | path (segs : Segs)
  | reference (isMut : Bool) (elem : SynType)
  | other

/-- A list of path segments (`syn::Path::segments`). -/
inductive Segs where
  | nil
  | cons (seg : Seg) (rest : Segs)

/-- View of `syn::PathSegment`: identifier plus arguments. -/
inductive Seg where
  | mk (ident : String) (arguments : PathArgs)

/-- View of `syn::PathArguments` (only `None` and `AngleBracketed` are
distinguished by the converter). -/
inductive PathArgs where
  | noArgs
  | angleBracketed (args : GenArgs)

/-- A list of generic arguments. -/
inductive GenArgs where
  | nil
  | cons (a : GenArg) (rest : GenArgs)

/-- View of `syn::GenericArgument`: a lifetime or a type (other variants are
irrelevant to the converter and fold into `lifetime`-like non-type
arguments). -/
inductive GenArg where
  | lifetime (name : String)
  | type (ty : SynType)

end

/-- `segs.iter().any(|segment| segment.ident == name)`. -/
def Segs.anyIdent : Segs → String → Bool
  | .nil, _ => false
  | .cons (.mk ident _) rest, name => ident = name ∨ rest.anyIdent name

/-- `segments.last()`. -/
def Segs.lastSeg : Segs → Option Seg
  | .nil => none
  | .cons s .nil => some s
  | .cons _ (.cons s rest) => Segs.lastSeg (.cons s rest)

/-- `args.first()`. -/
def GenArgs.firstArg : GenArgs → Option GenArg
  | .nil => none
  | .cons a _ => some a

/-! ### Token-stream rendering (model of `proc_macro2`)

`format_type` starts from `ty.to_token_stream().to_string()`.  That external
renderer emits the type's tokens separated by single spaces; we model the
token sequence of our `SynType` view and join with single spaces.  (Lifetime
tokens are carried as their rendered text.) -/

mutual

/-- Token sequence of a type, as `to_token_stream().to_string()` spaces it. -/
def tokensOfType : SynType → List String
  | .path segs => tokensOfSegs segs
  | .reference m elem =>
      (if m then ["&", "mut"] else ["&"]) ++ tokensOfType elem
  | .other => ["_"]

/-- Token sequence of a segment list, `::`-separated. -/
def tokensOfSegs : Segs → List String
  | .nil => []
  | .cons s .nil => tokensOfSeg s
  | .cons s (.cons s2 rest) =>
      tokensOfSeg s ++ ["::"] ++ tokensOfSegs (.cons s2 rest)

/-- Token sequence of one segment. -/
def tokensOfSeg : Seg → List String
  | .mk ident .noArgs => [ident]
  | .mk ident (.angleBracketed args) =>
      [ident, "<"] ++ tokensOfArgs args ++ [">"]

/-- Token sequence of a generic-argument list, comma-separated. -/
def tokensOfArgs : GenArgs → List String
  | .nil => []
  | .cons a .nil => tokensOfArg a
  | .cons a (.cons a2 rest) =>
      tokensOfArg a ++ [","] ++ tokensOfArgs (.cons a2 rest)

/-- Token sequence of one generic argument. -/
def tokensOfArg : GenArg → List String
  | .lifetime name => [name]
  | .type ty => tokensOfType ty

end

/-- `ty.to_token_stream().to_string()`: tokens joined by single spaces. -/
def renderType (ty : SynType) : String :=
  String.intercalate " " (tokensOfType ty)

/-- `convert.rs::format_type` applied to a `syn` type: render the token
stream, then normalize through the replace chain. -/
def format_type (ty : SynType) : String :=
  format_type_str (renderType ty)

/-! ## The context resolver (`convert.rs::get_context_info`) and the
instruction classifier (`predicates.rs`) -/

/-- `convert.rs::get_context_info`: only a *bare* path type is inspected
(references are not unwrapped); the path counts as Context when *any*
segment's identifier is "Context"; the struct name is the canonical text of
the first angle-bracketed generic argument of the *last* segment, when that
argument is a type. -/
def get_context_info (ty : SynType) : Bool × Option String :=
  match ty with
  | .path segs =>
    if segs.anyIdent "Context" then
      match segs.lastSeg with
      | some (.mk _ (.angleBracketed args)) =>
        match args.firstArg with
        | some (.type inner) => (true, some (format_type inner))
        | _ => (true, none)
      | _ => (true, none)
    else (false, none)
  | _ => (false, none)

/-- `predicates.rs::is_context_path`. -/
def is_context_path (segs : Segs) : Bool :=
  segs.anyIdent "Context"

/-- `predicates.rs::has_context_type`: unlike `get_context_info`, this
classifier *does* unwrap reference types recursively. -/
def has_context_type : SynType → Bool
  | .path segs => is_context_path segs
  | .reference _ elem => has_context_type elem
  | .other => false

/-! ## Instruction conversion (`convert.rs::convert_instruction`) -/

/-- View of `syn::Pat` (patterns): only identifier patterns yield a
parameter name; everything else becomes "unnamed". -/
inductive Pat where
  | identPat (name : String)
  | otherPat
deriving DecidableEq

/-- View of `syn::FnArg`. -/
inductive FnArg where
  | receiver
  | typed (pat : Pat) (ty : SynType)

/-- View of `syn::Visibility`. -/
inductive Vis where
  | publicVis
  | restricted (path : String)
  | inherited
deriving DecidableEq

/-- `convert.rs::format_visibility`. -/
def format_visibility : Vis → String
  | .publicVis => "pub"
  | .restricted p => "pub(" ++ p ++ ")"
  | .inherited => ""

/-- View of `syn::Signature` (the parts read by the converter). -/
structure FnSig where
  ident : String
  inputs : List FnArg
  output : Option SynType

/-- View of `syn::ItemFn` (the parts read by the converter). -/
structure ItemFn where
  vis : Vis
  sig : FnSig

/-- `predicates.rs::is_anchor_instruction`: some typed argument has a
Context-bearing type (references unwrapped). -/
def is_anchor_instruction (f : ItemFn) : Bool :=
  f.sig.inputs.any fun arg =>
    match arg with
    | .typed _ ty => has_context_type ty
    | .receiver => false

/-- One parameter step of the loop in `convert_instruction`: typed arguments
produce a `Parameter`; when the parameter is a context parameter that
resolves a struct name, `set_context_type` *unconditionally overwrites* the
instruction's context reference; receivers are skipped. -/
def convertParamStep (ins : Instruction) (input : FnArg) : Instruction :=
  match input with
  | .typed pat ty =>
    let param_name := match pat with
      | .identPat n => n
      | .otherPat => "unnamed"
    let info := get_context_info ty
    let param_type := format_type ty
    let ins := if info.1 then
        match info.2 with
        | some ctxTy => { ins with context_type := some ctxTy }
        | none => ins
      else ins
    { ins with parameters := ins.parameters ++ [⟨param_name, param_type, info.1⟩] }
  | .receiver => ins

/-- `convert.rs::convert_instruction` (it never returns an error in the
source, so it is embedded as a total function). -/
def convert_instruction (f : ItemFn) : Instruction :=
  let base : Instruction :=
    { name := f.sig.ident, visibility := format_visibility f.vis,
      parameters := [], return_type := none, context_type := none }
  let base := match f.sig.output with
    | some ty => { base with return_type := some (format_type ty) }
    | none => base
  f.sig.inputs.foldl convertParamStep base

/-! ## Attribute view, struct conversion and file conversion (`convert.rs`) -/

/-- Rust `str::rfind(char)`: index of the last occurrence. -/
def rfindIdx (c : Char) (s : List Char) : Option Nat :=
  match s.reverse.findIdx? (· = c) with
  | some i => some (s.length - 1 - i)
  | none => none

/-- `anchor_parser::error::ParseError`. -/
inductive ParseError where
  | ioErr (msg : String)
  | synErr (msg : String)
  | parse (msg : String)
deriving DecidableEq, Repr

/-- Decidable equality for `Except` results (used to evaluate the converter
and the normalizer on concrete inputs). -/
instance exceptDecEq {ε α : Type} [DecidableEq ε] [DecidableEq α] :
    DecidableEq (Except ε α)
  | .ok a, .ok b =>
    match decEq a b with
    | isTrue h => isTrue (h ▸ rfl)
    | isFalse h => isFalse (fun hh => by cases hh; exact h rfl)
  | .ok _, .error _ => isFalse (fun hh => by cases hh)
  | .error _, .ok _ => isFalse (fun hh => by cases hh)
  | .error e, .error e2 =>
    match decEq e e2 with
    | isTrue h => isTrue (h ▸ rfl)
    | isFalse h => isFalse (fun hh => by cases hh; exact h rfl)

/-- View of `syn::Attribute` as the converter and the predicates consume it:
the path identifier (`attr.path().is_ident(..)`), the full token-stream
rendering (`attr.to_token_stream().to_string()`, e.g. "# [account (init)]"),
and — for `derive` attributes — the identifier list obtained by
`parse_args_with` in `predicates::is_account_struct`. -/
structure SynAttr where
  pathIdent : String
  tokens : String
  deriveArgs : List String
deriving DecidableEq

/-- View of a named or unnamed `syn::Field`. -/
structure FieldSyn where
  ident : Option String
  ty : SynType
  vis : Vis
  attrs : List SynAttr

/-- View of `syn::ItemStruct`. -/
structure ItemStruct where
  ident : String
  vis : Vis
  attrs : List SynAttr
  fields : List FieldSyn

/-! View of `syn::Item`, `syn::ItemMod` and module bodies (mutual). -/

mutual

inductive Item where
  | imod (m : ItemMod)
  | istruct (s : ItemStruct)
  | ifn (f : ItemFn)
  | otherItem

inductive ItemMod where
  | mk (ident : String) (vis : Vis) (attrs : List SynAttr) (content : Option Items)

inductive Items where
  | nil
  | cons (head : Item) (tail : Items)

end

/-- `predicates.rs::is_anchor_program`: some attribute path is exactly
"program". -/
def is_anchor_program (m : ItemMod) : Bool :=
  match m with
  | .mk _ _ attrs _ => attrs.any (fun a => a.pathIdent = "program")

/-- `predicates.rs::is_account_struct`: some attribute is a `derive` whose
parsed argument path list contains "Accounts". -/
def is_account_struct (s : ItemStruct) : Bool :=
  s.attrs.any (fun a => a.pathIdent = "derive" ∧ a.deriveArgs.contains "Accounts")

/-- `predicates.rs::is_raw_account`: some attribute path is exactly
"account". -/
def is_raw_account (s : ItemStruct) : Bool :=
  s.attrs.any (fun a => a.pathIdent = "account")

/-- `convert.rs::process_account_constraints`, lifted to return the parsed
constraint list (the source pushes each constraint into the field it was
given): extract the text between the first `(` and the last `)` of the
attribute's token rendering and run the scanner on it; when there is no `(`
or no `)`, fail with the `Parse` error of the source.  (When the last `)`
precedes the first `(` the Rust slice would panic; the embedding yields the
empty slice — no input of interest has that shape.) -/
def process_account_constraints (attr : SynAttr) : Except ParseError (List Constraint) :=
  let s := attr.tokens.data
  match findIdx '(' s with
  | some start =>
    match rfindIdx ')' s with
    | some stop =>
      let content := (s.take stop).drop (start + 1)
      .ok (parse_constraint_content ⟨content⟩)
    | none => .error (.parse "Failed to parse account attribute")
  | none => .error (.parse "Failed to parse account attribute")

/-- The per-field part of `convert.rs::convert_account_struct`: named fields
get their constraints from every `account`-identified attribute, appended in
encountered order; unnamed fields yield no `AccountField` at all. -/
def convert_account_field (field : FieldSyn) : Except ParseError (Option AccountField) :=
  match field.ident with
  | some fieldName =>
    let base : AccountField := ⟨fieldName, format_type field.ty, []⟩
    (field.attrs.foldlM (fun (acc : AccountField) attr =>
      if attr.pathIdent = "account" then
        (process_account_constraints attr).map
          (fun cs => { acc with constraints := acc.constraints ++ cs })
      else .ok acc) base).map some
  | none => .ok none

/-- `convert.rs::convert_account_struct`. -/
def convert_account_struct (s : ItemStruct) : Except ParseError Account :=
  (s.fields.foldlM (fun (fs : List AccountField) field =>
    (convert_account_field field).map
      (fun res => match res with
        | some f => fs ++ [f]
        | none => fs)) []).map
    (fun fs => ⟨s.ident, format_visibility s.vis, fs⟩)

/-- `convert.rs::convert_raw_account` (never fails in the source). -/
def convert_raw_account (s : ItemStruct) : RawAccount :=
  { name := s.ident, visibility := format_visibility s.vis,
    fields := s.fields.filterMap (fun field =>
      match field.ident with
      | some fieldName =>
          some ⟨fieldName, format_type field.ty, format_visibility field.vis⟩
      | none => none) }

/-- `convert.rs::process_program_item`: inside a program module only
functions classified as instructions contribute. -/
def process_program_item (pm : ProgramModule) (item : Item) : ProgramModule :=
  match item with
  | .ifn f =>
    if is_anchor_instruction f then
      { pm with instructions := pm.instructions ++ [convert_instruction f] }
    else pm
  | _ => pm

/-- Fold `process_program_item` over a module body. -/
def processProgramItems : ProgramModule → Items → ProgramModule
  | pm, .nil => pm
  | pm, .cons i rest => processProgramItems (process_program_item pm i) rest

/-- `convert.rs::process_item`: program modules are converted and recursed
into (function items only); structs are classified account-struct first, raw
account second; everything else is skipped. -/
def process_item (prog : Program) (item : Item) : Except ParseError Program :=
  match item with
  | .imod m =>
    if is_anchor_program m then
      match m with
      | .mk ident vis _ content =>
        let pm : ProgramModule := ⟨ident, format_visibility vis, []⟩
        let pm := match content with
          | some items => processProgramItems pm items
          | none => pm
        .ok { prog with program_modules := prog.program_modules ++ [pm] }
    else .ok prog
  | .istruct s =>
    if is_account_struct s then
      (convert_account_struct s).map
        (fun a => { prog with account_structs := prog.account_structs ++ [a] })
    else if is_raw_account s then
      .ok { prog with raw_accounts := prog.raw_accounts ++ [convert_raw_account s] }
    else .ok prog
  | _ => .ok prog

/-- Fold `process_item` over a file's items. -/
def processItems : Program → Items → Except ParseError Program
  | prog, .nil => .ok prog
  | prog, .cons i rest => do processItems (← process_item prog i) rest

/-- `convert.rs::convert_file`. -/
def convert_file (items : Items) : Except ParseError Program :=
  processItems ⟨[], [], [], none⟩ items

/-! ## Normalizer-side domain model (`anchor_normalizer::model`) -/

/-- `anchor_normalizer::error::NormalizationError`. -/
inductive NormalizationError where
  | astExtraction (msg : String)
  | validation (msg : String)
  | inference (msg : String)
  | missingInfo (msg : String)
  | otherErr (msg : String)
deriving DecidableEq, Repr

/-- `model::account::NormalizedConstraint`. -/
structure NormalizedConstraint where
  constraint_type : String
  value : Option String
  is_inferred : Bool
deriving DecidableEq, Repr

/-- `model::account::InferredFieldInfo`. -/
structure InferredFieldInfo where
  requires_mut : Bool
  requires_signer : Bool
  is_initialized : Bool
  related_account : Option String
deriving DecidableEq, Repr

/-- `model::account::NormalizedAccountField`. -/
structure NormalizedAccountField where
  name : String
  ty : String
  constraints : List NormalizedConstraint
  documentation : Option String
  inferred_info : InferredFieldInfo
deriving DecidableEq, Repr

/-- `model::account::NormalizedAccountStruct`. -/
structure NormalizedAccountStruct where
  name : String
  visibility : String
  fields : List NormalizedAccountField
  documentation : Option String
deriving DecidableEq, Repr

/-- `model::account::NormalizedRawField`. -/
structure NormalizedRawField where
  name : String
  ty : String
  visibility : String
  documentation : Option String
deriving DecidableEq, Repr

/-- `model::account::NormalizedRawAccount`. -/
structure NormalizedRawAccount where
  name : String
  visibility : String
  fields : List NormalizedRawField
  documentation : Option String
deriving DecidableEq, Repr

/-- `model::instruction::BasicOperation`. -/
inductive BasicOperation where
  | Log (text : String)
  | Initialize (target payer : String)
  | Transfer (sourceAcc destAcc : String)
  | Close (target refund_to : String)
deriving DecidableEq, Repr

/-- `model::instruction::InstructionBody`. -/
inductive InstructionBody where
  | unknown
  | basic (ops : List BasicOperation)
deriving DecidableEq, Repr

/-- `model::instruction::NormalizedParameter`. -/
structure NormalizedParameter where
  name : String
  ty : String
  is_context : Bool
deriving DecidableEq, Repr

/-- `model::instruction::NormalizedInstruction`. -/
structure NormalizedInstruction where
  name : String
  visibility : String
  parameters : List NormalizedParameter
  return_type : Option String
  account_struct_name : Option String
  body : Option InstructionBody
  documentation : Option String
deriving DecidableEq, Repr

/-- `model::program::NormalizedModule`. -/
structure NormalizedModule where
  name : String
  visibility : String
  instructions : List NormalizedInstruction
  documentation : Option String
deriving DecidableEq, Repr

/-- `model::validation::IssueSeverity`. -/
inductive IssueSeverity where
  | info
  | warning
  | error
deriving DecidableEq, Repr

/-- `model::validation::ValidationIssue`. -/
structure ValidationIssue where
  severity : IssueSeverity
  message : String
  element : String
deriving DecidableEq, Repr

/-- `ValidationIssue::info`. -/
def ValidationIssue.infoIssue (message element : String) : ValidationIssue :=
  ⟨.info, message, element⟩

/-- `ValidationIssue::warning`. -/
def ValidationIssue.warningIssue (message element : String) : ValidationIssue :=
  ⟨.warning, message, element⟩

/-- `ValidationIssue::error`. -/
def ValidationIssue.errorIssue (message element : String) : ValidationIssue :=
  ⟨.error, message, element⟩

/-- `model::program::SourceInfo`. -/
structure SourceInfo where
  file_path : String
  line_range : Option (Nat × Nat)
deriving DecidableEq, Repr

/-- `model::program::NormalizedProgram`. -/
structure NormalizedProgram where
  id : String
  name : String
  modules : List NormalizedModule
  account_structs : List NormalizedAccountStruct
  raw_accounts : List NormalizedRawAccount
  documentation : Option String
  validation_issues : List ValidationIssue
  source_info : Option SourceInfo
  schema_version : String
deriving DecidableEq, Repr

/-- `NormalizedProgram::new`. -/
def NormalizedProgram.new (id name : String) : NormalizedProgram :=
  ⟨id, name, [], [], [], none, [], none, "1.0"⟩

/-- `NormalizedProgram::find_account_struct`. -/
def NormalizedProgram.find_account_struct (p : NormalizedProgram) (name : String) :
    Option NormalizedAccountStruct :=
  p.account_structs.find? (fun a => a.name = name)

/-- `NormalizedAccountStruct::find_field`. -/
def NormalizedAccountStruct.find_field (a : NormalizedAccountStruct) (name : String) :
    Option NormalizedAccountField :=
  a.fields.find? (fun f => f.name = name)

/-- `NormalizedInstruction::has_context_parameter`. -/
def NormalizedInstruction.has_context_parameter (i : NormalizedInstruction) : Bool :=
  i.parameters.any (·.is_context)

/-- `model::account::NormalizedAccountField::add_constraint`: update the
derived `inferred_info` booleans according to the constraint's type, then
push the constraint. -/
def NormalizedAccountField.add_constraint (f : NormalizedAccountField)
    (c : NormalizedConstraint) : NormalizedAccountField :=
  let info := f.inferred_info
  let info :=
    if c.constraint_type = "mut" then { info with requires_mut := true }
    else if c.constraint_type = "signer" then { info with requires_signer := true }
    else if c.constraint_type = "init" then { info with is_initialized := true }
    else if c.constraint_type = "payer" then
      match c.value with
      | some v => { info with related_account := some v }
      | none => info
    else info
  { f with inferred_info := info, constraints := f.constraints ++ [c] }

/-! ## Structural copy (`normalization/{account,instruction}.rs`) -/

/-- `normalization/account.rs::normalize_constraint`: the copy is marked not
inferred. -/
def normalize_constraint (c : Constraint) : NormalizedConstraint :=
  ⟨c.constraint_type, c.value, false⟩

/-- `normalization/account.rs::normalize_account_field`: copy the field and
add every copied constraint through `add_constraint` in source order. -/
def normalize_account_field (f : AccountField) : NormalizedAccountField :=
  let base : NormalizedAccountField :=
    ⟨f.name, f.ty, [], none, ⟨false, false, false, none⟩⟩
  (f.constraints.map normalize_constraint).foldl NormalizedAccountField.add_constraint base

/-- `normalization/account.rs::normalize_account_struct` (never fails in the
source). -/
def normalize_account_struct (a : Account) : NormalizedAccountStruct :=
  ⟨a.name, a.visibility, a.fields.map normalize_account_field, none⟩

/-- `normalization/account.rs::normalize_raw_account`. -/
def normalize_raw_account (a : RawAccount) : NormalizedRawAccount :=
  ⟨a.name, a.visibility, a.fields.map (fun f => ⟨f.name, f.ty, f.visibility, none⟩), none⟩

/-- `normalization/instruction.rs::normalize_parameter`. -/
def normalize_parameter (p : Parameter) : NormalizedParameter :=
  ⟨p.name, p.ty, p.is_context⟩

/-- `normalization/instruction.rs::normalize_instruction`: the body is
`Some(Unknown)` and the account-struct reference is the parser's
`context_type`, when present. -/
def normalize_instruction (i : Instruction) : NormalizedInstruction :=
  { name := i.name, visibility := i.visibility,
    parameters := i.parameters.map normalize_parameter,
    return_type := i.return_type,
    account_struct_name := i.context_type,
    body := some .unknown,
    documentation := none }

/-- `normalization/program.rs::normalize_module`. -/
def normalize_module (m : ProgramModule) : NormalizedModule :=
  ⟨m.name, m.visibility, m.instructions.map normalize_instruction, none⟩

/-! ## Name and id derivation (`normalization/program.rs`) -/

/-- Split a character list at every occurrence of a separator character
(occurrences removed, empty chunks kept). -/
def splitOnChar (c : Char) : List Char → List (List Char)
  | [] => [[]]
  | ch :: rest =>
    match splitOnChar c rest with
    | [] => [[]]
    | g :: gs => if ch = c then [] :: g :: gs else (ch :: g) :: gs

/-- Model of Rust `std::path::Path::file_name` on Unix: the last component
that is not `""` or `"."`; `None` when the path ends in `".."` or has no such
component. -/
def fileName (s : String) : Option String :=
  let comps := ((splitOnChar '/' s.data).map (fun l => (⟨l⟩ : String))).filter
    (fun c => c ≠ "" ∧ c ≠ ".")
  match comps.getLast? with
  | some c => if c = ".." then none else some c
  | none => none

/-- Model of Rust `std::path::Path::file_stem` (followed by the always
successful `to_str` on our UTF-8 strings): the file name up to its last `.`,
except that a lone leading `.` belongs to the stem. -/
def fileStem (s : String) : Option String :=
  (fileName s).map fun n =>
    match rfindIdx '.' n.data with
    | some i => if i = 0 then n else ⟨n.data.take i⟩
    | none => n

/-- `normalization/program.rs::extract_program_name`.  The source's first two
branches (`len() == 1` and `!is_empty()`) both return the first module's
name and are merged here into the single cons pattern. -/
def extract_program_name (p : Program) : Except NormalizationError String :=
  match p.program_modules with
  | m :: _ => .ok m.name
  | [] =>
    match p.source_path with
    | some sp =>
      match fileStem sp with
      | some n => .ok n
      | none => .error (.missingInfo "Could not determine program name")
    | none => .error (.missingInfo "Could not determine program name")

/-- `normalization/program.rs::generate_program_id`.  The non-deterministic
`chrono::Utc::now().timestamp()` of the final fallback is passed in as the
explicit parameter `now`. -/
def generate_program_id (now : Int) (p : Program) : String :=
  match p.source_path with
  | some sp => "program:" ++ sp
  | none =>
    match p.program_modules with
    | m :: _ => "program:" ++ m.name
    | [] => "program:" ++ toString now

/-! ## Linking (`normalization/program.rs`) -/

/-- `normalization/program.rs::extract_context_type`: the text strictly
between the first `<` and the last `>`, trimmed; `None` when either bracket
is missing or they do not enclose anything. -/
def extract_context_type (ty : String) : Option String :=
  match findIdx '<' ty.data with
  | none => none
  | some startIdx =>
    match rfindIdx '>' ty.data with
    | none => none
    | some stop =>
      if startIdx + 1 < stop then
        some ⟨trimL ((ty.data.take stop).drop (startIdx + 1))⟩
      else none

/-- The parameter loop of `link_instructions_to_accounts`: every context
parameter that resolves a type overwrites the reference, so the last
resolving one wins. -/
def linkParamStep (st : Option String) (param : NormalizedParameter) : Option String :=
  if param.is_context then
    match extract_context_type param.ty with
    | some t => some t
    | none => st
  else st

/-- Per-instruction linking: instructions with a reference already set are
skipped; otherwise the parameter loop runs. -/
def link_instruction (ins : NormalizedInstruction) : NormalizedInstruction :=
  match ins.account_struct_name with
  | some _ => ins
  | none => { ins with account_struct_name := ins.parameters.foldl linkParamStep none }

/-- One module of `link_instructions_to_accounts`. -/
def linkModule (m : NormalizedModule) : NormalizedModule :=
  { m with instructions := m.instructions.map link_instruction }

/-- `normalization/program.rs::link_instructions_to_accounts` (never fails in
the source). -/
def link_instructions_to_accounts (p : NormalizedProgram) : NormalizedProgram :=
  { p with modules := p.modules.map linkModule }

/-! ## Inference engine (`normalization/inference.rs`) -/

/-- `field.constraints.iter().any(|c| c.constraint_type == t)`. -/
def NormalizedAccountField.hasConstraint (f : NormalizedAccountField) (t : String) : Bool :=
  f.constraints.any (·.constraint_type = t)

/-- The payer lookup in `infer_operations_from_account`: the value of the
first "payer" constraint, or the literal "payer" when the constraint is
absent or value-less. -/
def payerOf (f : NormalizedAccountField) : String :=
  (((f.constraints.find? (·.constraint_type = "payer")).bind (·.value)).getD "payer")

/-- The first loop of `infer_operations_from_account`: one `Initialize` per
field with an "init" constraint. -/
def inferInitOps (account : NormalizedAccountStruct) : List BasicOperation :=
  account.fields.filterMap fun f =>
    if f.hasConstraint "init" then some (.Initialize f.name (payerOf f)) else none

/-- The name-dispatch `match` of `infer_operations_from_account`. -/
def inferNameOps (instr : NormalizedInstruction) (account : NormalizedAccountStruct) :
    List BasicOperation :=
  if instr.name = "initialize" ∨ instr.name = "init" ∨ instr.name = "create" then
    []
  else if instr.name = "transfer" ∨ instr.name = "send" then
    match account.find_field "from", account.find_field "to" with
    | some fromF, some toF => [.Transfer fromF.name toF.name]
    | _, _ => []
  else if instr.name = "close" then
    match account.fields.find? (fun f => f.hasConstraint "close") with
    | some closeField =>
      [.Close closeField.name
        (((closeField.constraints.find? (·.constraint_type = "close")).bind
            (·.value)).getD "authority")]
    | none => []
  else []

/-- `inference.rs::infer_operations_from_account`: one `Initialize` per field
with an "init" constraint, then extra operations dispatched on the
instruction's exact name. -/
def infer_operations_from_account (instr : NormalizedInstruction)
    (account : NormalizedAccountStruct) : List BasicOperation :=
  inferInitOps account ++ inferNameOps instr account

/-- One instruction of `infer_instruction_operations`: instructions whose
body is already `Basic` are skipped; otherwise, when the account-struct
reference resolves, a non-empty inferred operation list replaces the body. -/
def inferInstrStep (p : NormalizedProgram) (instr : NormalizedInstruction) :
    NormalizedInstruction :=
  match instr.body with
  | some (.basic _) => instr
  | _ =>
    match instr.account_struct_name with
    | some nm =>
      match p.find_account_struct nm with
      | some account =>
        let operations := infer_operations_from_account instr account
        if operations = [] then instr
        else { instr with body := some (.basic operations) }
      | none => instr
    | none => instr

/-- One module of `infer_instruction_operations`. -/
def inferOpsModule (p : NormalizedProgram) (m : NormalizedModule) : NormalizedModule :=
  { m with instructions := m.instructions.map (inferInstrStep p) }

/-- `inference.rs::infer_instruction_operations`.  The source collects
`(module_idx, instr_idx, operations)` triples over the unmodified program and
then writes the bodies back; since the collection reads only the (unchanged)
account structs and each instruction's own fields, this equals the direct
per-instruction map below. -/
def infer_instruction_operations (p : NormalizedProgram) : NormalizedProgram :=
  { p with modules := p.modules.map (inferOpsModule p) }

/-- Rust `str::contains` for a literal pattern on character lists. -/
def containsSub (hay sub : List Char) : Bool :=
  match hay with
  | [] => sub.isEmpty
  | _ :: rest => sub.isPrefixOf hay || containsSub rest sub

/-- The constraints `infer_field_constraints` schedules for one field, in
push order: an inferred "signer" for a Signer-typed field named
authority/owner/admin lacking one, then an inferred "mut" for an
"init"-carrying field lacking one. -/
def fieldConstraintsToAdd (f : NormalizedAccountField) : List NormalizedConstraint :=
  (if (f.name = "authority" ∨ f.name = "owner" ∨ f.name = "admin")
      ∧ ¬ f.hasConstraint "signer"
      ∧ containsSub f.ty.data "Signer".data then
    [⟨"signer", none, true⟩]
  else []) ++
  (if f.hasConstraint "init" ∧ ¬ f.hasConstraint "mut" then
    [⟨"mut", none, true⟩]
  else [])

/-- One field of `infer_field_constraints`: the scheduled constraints are
added through `add_constraint`. -/
def inferFieldStep (f : NormalizedAccountField) : NormalizedAccountField :=
  (fieldConstraintsToAdd f).foldl NormalizedAccountField.add_constraint f

/-- One account struct of `infer_field_constraints`. -/
def inferFieldsAcct (a : NormalizedAccountStruct) : NormalizedAccountStruct :=
  { a with fields := a.fields.map inferFieldStep }

/-- `inference.rs::infer_field_constraints`: the source collects
`(account_idx, field_idx, constraint)` triples over the unmodified program
and then applies them; the conditions read only each field's own pre-pass
state, so this equals the per-field map below. -/
def infer_field_constraints (p : NormalizedProgram) : NormalizedProgram :=
  { p with account_structs := p.account_structs.map inferFieldsAcct }

/-- The `(field_idx, related_name)` updates `infer_account_relationships`
collects for one account struct, in source iteration order
(`i` outer, `j` inner, then constraint order). -/
def relUpdates (account : NormalizedAccountStruct) : List (Nat × String) :=
  account.fields.enum.flatMap fun fi =>
    account.fields.enum.flatMap fun fj =>
      if fi.1 = fj.1 then []
      else fj.2.constraints.filterMap fun c =>
        if (c.constraint_type = "has_one" ∨ c.constraint_type = "belongs_to")
            ∧ c.value = some fi.2.name then
          some (fj.1, fi.2.name)
        else none

/-- Write `related_account := some v` at field index `j`. -/
def setRelated (fields : List NormalizedAccountField) (j : Nat) (v : String) :
    List NormalizedAccountField :=
  fields.enum.map fun kf =>
    if kf.1 = j then
      { kf.2 with inferred_info := { kf.2.inferred_info with related_account := some v } }
    else kf.2

/-- Apply the collected relationship updates in order (a later update to the
same field overwrites an earlier one). -/
def applyRelUpdates (fields : List NormalizedAccountField) (upds : List (Nat × String)) :
    List NormalizedAccountField :=
  upds.foldl (fun fs u => setRelated fs u.1 u.2) fields

/-- One account struct of `infer_account_relationships`. -/
def inferRelAcct (a : NormalizedAccountStruct) : NormalizedAccountStruct :=
  { a with fields := applyRelUpdates a.fields (relUpdates a) }

/-- `inference.rs::infer_account_relationships`: the source collects all
`(account_idx, field_idx, name)` triples over the unmodified program and then
applies them in order; updates are keyed per account, so this equals the
per-account collect-and-apply below. -/
def infer_account_relationships (p : NormalizedProgram) : NormalizedProgram :=
  { p with account_structs := p.account_structs.map inferRelAcct }

/-- `inference.rs::infer_missing_semantics`: the three passes in order. -/
def infer_missing_semantics (p : NormalizedProgram) : NormalizedProgram :=
  infer_account_relationships (infer_field_constraints (infer_instruction_operations p))

/-! ## Validation (`normalization/validation.rs`) -/

/-- `validation.rs::validate_unique_account_names`: one name space scanned
structs-then-raw-accounts; every repetition after the first occurrence emits
an `Error` (the `HashSet` of the source is embedded as the list of names
seen so far, used only through membership). -/
def validate_unique_account_names (p : NormalizedProgram) : List ValidationIssue :=
  let st := p.account_structs.foldl
    (fun (st : List String × List ValidationIssue) a =>
      if st.1.contains a.name then
        (st.1, st.2 ++ [ValidationIssue.errorIssue
          ("Duplicate account struct name: " ++ a.name) a.name])
      else (st.1 ++ [a.name], st.2)) ([], [])
  let st := p.raw_accounts.foldl
    (fun (st : List String × List ValidationIssue) a =>
      if st.1.contains a.name then
        (st.1, st.2 ++ [ValidationIssue.errorIssue
          ("Duplicate account name: " ++ a.name) a.name])
      else (st.1 ++ [a.name], st.2)) st
  st.2

/-- `validation.rs::validate_instruction_references`. -/
def validate_instruction_references (p : NormalizedProgram) : List ValidationIssue :=
  let account_names := p.account_structs.map (·.name)
  p.modules.flatMap fun m =>
    m.instructions.flatMap fun i =>
      match i.account_struct_name with
      | some nm =>
        if account_names.contains nm then []
        else [ValidationIssue.warningIssue
          ("Instruction " ++ i.name ++ " references undefined account struct " ++ nm)
          i.name]
      | none =>
        if i.has_context_parameter then
          [ValidationIssue.warningIssue
            ("Instruction " ++ i.name ++ " has Context parameter but no associated account struct")
            i.name]
        else []

/-- `validation.rs::validate_field_types`. -/
def validate_field_types (p : NormalizedProgram) : List ValidationIssue :=
  (p.account_structs.flatMap fun a =>
    a.fields.flatMap fun f =>
      if f.ty = "" then
        [ValidationIssue.warningIssue
          ("Field " ++ f.name ++ " in account " ++ a.name ++ " has no type information")
          (a.name ++ "." ++ f.name)]
      else []) ++
  (p.raw_accounts.flatMap fun a =>
    a.fields.flatMap fun f =>
      if f.ty = "" then
        [ValidationIssue.warningIssue
          ("Field " ++ f.name ++ " in raw account " ++ a.name ++ " has no type information")
          (a.name ++ "." ++ f.name)]
      else [])

/-- `validation.rs::validate_visibility`. -/
def validate_visibility (p : NormalizedProgram) : List ValidationIssue :=
  p.modules.flatMap fun m =>
    m.instructions.flatMap fun i =>
      if i.visibility ≠ "pub" then
        [ValidationIssue.infoIssue
          ("Instruction " ++ i.name ++ " has non-public visibility: " ++ i.visibility)
          i.name]
      else []

/-- `validation.rs::validate_program` (never fails in the source): the four
scans' issues are appended, in scan order, to the program. -/
def validate_program (p : NormalizedProgram) : NormalizedProgram :=
  { p with validation_issues := p.validation_issues
      ++ validate_unique_account_names p
      ++ validate_instruction_references p
      ++ validate_field_types p
      ++ validate_visibility p }

/-! ## The normalizer entry point (`normalization/program.rs::normalize_program`) -/

/-- `normalize_program`: name derivation (the only fallible step), id
derivation, structural copy, linking, inference, validation. -/
def normalize_program (now : Int) (program : Program) :
    Except NormalizationError NormalizedProgram :=
  match extract_program_name program with
  | .error e => .error e
  | .ok name =>
    let id := generate_program_id now program
    let normalized := NormalizedProgram.new id name
    let normalized := match program.source_path with
      | some sp => { normalized with source_info := some ⟨sp, none⟩ }
      | none => normalized
    let normalized := { normalized with
      modules := program.program_modules.map normalize_module,
      account_structs := program.account_structs.map normalize_account_struct,
      raw_accounts := program.raw_accounts.map normalize_raw_account }
    let normalized := link_instructions_to_accounts normalized
    let normalized := infer_missing_semantics normalized
    let normalized := validate_program normalized
    .ok normalized

/-! ## Concrete inputs used by the claim theorems -/

/-- The bare path type `Context<N>` for a struct name `N`. -/
def ctxGen (n : String) : SynType :=
  .path (.cons (.mk "Context" (.angleBracketed
    (.cons (.type (.path (.cons (.mk n .noArgs) .nil))) .nil))) .nil)

/-- The bare path type `Context<Initialize>`. -/
def ctxInitializeTy : SynType := ctxGen "Initialize"

/-- The reference type `&Context<Initialize>`. -/
def refCtxInitializeTy : SynType :=
  .reference false ctxInitializeTy

/-- A function `pub fn update(a: Context<A>, b: Context<B>)` with two
context-bearing parameters, both resolving a struct name. -/
def twoCtxFn : ItemFn :=
  ⟨.publicVis, ⟨"update",
    [.typed (.identPat "a") (ctxGen "A"), .typed (.identPat "b") (ctxGen "B")], none⟩⟩

/-- A normalized instruction with two context-bearing parameters and an
unset account-struct reference (as linking finds it). -/
def twoCtxInstr : NormalizedInstruction :=
  ⟨"update", "pub", [⟨"a", "Context<A>", true⟩, ⟨"b", "Context<B>", true⟩],
   none, none, some .unknown, none⟩

/-- The same instruction with its reference already set before linking. -/
def setRefInstr : NormalizedInstruction :=
  { twoCtxInstr with account_struct_name := some "C" }

/-- The input program of the determinism witness: no modules, a source path
whose file stem is "vault". -/
def detWitnessProg : Program := ⟨[], [], [], some "src/vault.rs"⟩

/-- The normalizer's output on `detWitnessProg` (with timestamp 0). -/
def detWitnessOut : NormalizedProgram :=
  match normalize_program 0 detWitnessProg with
  | .ok n => n
  | .error _ => NormalizedProgram.new "" ""

/-- A concrete account struct for the operation-inference witness: one
"init"+"payer=authority" field and one signer field. -/
def opsWitnessAccount : NormalizedAccountStruct :=
  ⟨"Initialize", "pub",
   [⟨"data", "Account", [⟨"init", none, false⟩, ⟨"payer", some "authority", false⟩],
     none, ⟨false, false, true, some "authority"⟩⟩,
    ⟨"authority", "Signer", [⟨"signer", none, false⟩], none, ⟨false, true, false, none⟩⟩],
   none⟩

/-- A concrete instruction (body Unknown, reference "Initialize") for the
operation-inference witness. -/
def opsWitnessInstr : NormalizedInstruction :=
  ⟨"setup", "pub", [], none, some "Initialize", some .unknown, none⟩

/-- A concrete normalized program for the operation-inference witness. -/
def opsWitnessProg : NormalizedProgram :=
  { NormalizedProgram.new "i" "n" with account_structs := [opsWitnessAccount] }

/-- The structural view of a field that relationship collection and
field-constraint inference read: name, type text, constraint list. -/
def projF (f : NormalizedAccountField) : String × String × List NormalizedConstraint :=
  (f.name, f.ty, f.constraints)

/-- The refund-target lookup of the "close" dispatch branch. -/
def closeRefund (f : NormalizedAccountField) : String :=
  (((f.constraints.find? (·.constraint_type = "close")).bind (·.value)).getD "authority")

/-- The view of a field that operation inference reads: name, "init"
presence, payer target, "close" presence, refund target. -/
def projOps (f : NormalizedAccountField) : String × Bool × String × Bool × String :=
  (f.name, f.hasConstraint "init", payerOf f, f.hasConstraint "close", closeRefund f)

/-- `relUpdates` expressed over the `projF` view of the field list. -/
def relUpdatesP (l : List (String × String × List NormalizedConstraint)) :
    List (Nat × String) :=
  l.enum.flatMap fun fi =>
    l.enum.flatMap fun fj =>
      if fi.1 = fj.1 then []
      else fj.2.2.2.filterMap fun c =>
        if (c.constraint_type = "has_one" ∨ c.constraint_type = "belongs_to")
            ∧ c.value = some fi.2.1 then
          some (fj.1, fi.2.1)
        else none

/-- `infer_operations_from_account` expressed over the `projOps` view of the
field list. -/
def opsFromView (name : String) (vs : List (String × Bool × String × Bool × String)) :
    List BasicOperation :=
  (vs.filterMap fun v => if v.2.1 then some (.Initialize v.1 v.2.2.1) else none) ++
  (if name = "initialize" ∨ name = "init" ∨ name = "create" then []
   else if name = "transfer" ∨ name = "send" then
     (if (vs.any (·.1 = "from")) ∧ (vs.any (·.1 = "to")) then
       [.Transfer "from" "to"]
     else [])
   else if name = "close" then
     match vs.find? (·.2.2.2.1) with
     | some v => [.Close v.1 v.2.2.2.2]
     | none => []
   else [])

/-- The per-field property of C9: a valued "payer" constraint forces a
non-`None` related account. -/
def payerRelated (g : NormalizedAccountField) : Prop :=
  (∃ c ∈ g.constraints, c.constraint_type = "payer" ∧ c.value ≠ none) →
    g.inferred_info.related_account ≠ none

/-- A concrete parser-side program whose only account-struct field carries a
valued "payer" constraint. -/
def c9Prog : Program :=
  ⟨[], [⟨"Init", "pub", [⟨"data", "Account", [⟨"payer", some "authority"⟩]⟩]⟩], [],
   some "x/y.rs"⟩

/-- The normalizer's output on `c9Prog`. -/
def c9Out : NormalizedProgram :=
  match normalize_program 0 c9Prog with
  | .ok n => n
  | .error _ => NormalizedProgram.new "" ""

/-- The first account struct of `c9Out`. -/
def c9Acct : NormalizedAccountStruct :=
  match c9Out.account_structs with
  | a :: _ => a
  | [] => ⟨"", "", [], none⟩

/-- The first field of `c9Acct`. -/
def c9Field : NormalizedAccountField :=
  match c9Acct.fields with
  | f :: _ => f
  | [] => ⟨"", "", [], none, ⟨false, false, false, none⟩⟩

/-- A concrete normalized account struct with no has_one/belongs_to
constraints. -/
def c9RelAcct : NormalizedAccountStruct :=
  ⟨"A", "pub",
   [⟨"data", "T", [⟨"payer", some "x", false⟩], none, ⟨false, false, false, some "x"⟩⟩],
   none⟩

/-- Abbreviation for the related-account overwrite. -/
def setRel (v : String) (f : NormalizedAccountField) : NormalizedAccountField :=
  { f with inferred_info := { f.inferred_info with related_account := some v } }

/-- A concrete program for the idempotence witness, exercising operation,
constraint and relationship inference. -/
def c6Prog : Program :=
  ⟨[⟨"token", "pub",
     [⟨"initialize", "pub", [⟨"ctx", "Context<Initialize>", true⟩], none, some "Initialize"⟩]⟩],
   [⟨"Initialize", "pub",
     [⟨"data", "Account", [⟨"init", none⟩, ⟨"payer", some "authority"⟩]⟩,
      ⟨"authority", "Signer<x>", []⟩]⟩],
   [], some "p/lib.rs"⟩

/-- The normalizer's output on `c6Prog`. -/
def c6Out : NormalizedProgram :=
  match normalize_program 0 c6Prog with
  | .ok n => n
  | .error _ => NormalizedProgram.new "" ""

/-- Invariant relating the source constraint-scanner state to the spec-side
splitter state: equal depths, the scanner's segments are the trimmed
non-empty spec segments, and the scanner's buffer differs from the spec
buffer only by a whitespace prefix left over from a skipped empty segment. -/
def cinv (cs : CScanSt) (ss : SpecSplitSt) : Prop :=
  cs.depth = ss.depth ∧
  cs.segs = (ss.segs.map trimL).filter (· ≠ []) ∧
  ∃ ws, (∀ c ∈ ws, isWs c = true) ∧ cs.current = ws ++ ss.current

/-! ## The bare-`#[account]` attribute shape -/

/-- An `account`-identified attribute whose token rendering has no `(`: the
shape of a bare `#[account]` (which renders as "# [account]"), i.e. an
account attribute with no parenthesized argument list. -/
def attr_is_bare_account (a : SynAttr) : Bool :=
  a.pathIdent = "account" && (findIdx '(' a.tokens.data).isNone

/-- A named field carrying a bare `#[account]` attribute (unnamed fields are
skipped by the converter before their attributes are looked at). -/
def field_has_bare_account (f : FieldSyn) : Bool :=
  f.ident.isSome && f.attrs.any attr_is_bare_account

/-- An account-validation struct (`derive(Accounts)`) one of whose named
fields carries a bare `#[account]` attribute. -/
def struct_has_bare_account (s : ItemStruct) : Bool :=
  is_account_struct s && s.fields.any field_has_bare_account

/-- Some top-level item of the file is an account-validation struct with a
bare `#[account]` field. -/
def items_have_bare_account : Items → Bool
  | .nil => false
  | .cons (.istruct s) rest => struct_has_bare_account s || items_have_bare_account rest
  | .cons _ rest => items_have_bare_account rest

/-- The per-attribute step of the fold inside `convert_account_field`
(named so the fold can be reasoned about; definitionally the lambda of
`convert_account_field`). -/
def accountFieldStep (acc : AccountField) (attr : SynAttr) : Except ParseError AccountField :=
  if attr.pathIdent = "account" then
    (process_account_constraints attr).map
      (fun cs => { acc with constraints := acc.constraints ++ cs })
  else .ok acc

/-- The per-field step of the fold inside `convert_account_struct`
(definitionally the lambda of `convert_account_struct`). -/
def accountStructStep (fs : List AccountField) (field : FieldSyn) :
    Except ParseError (List AccountField) :=
  (convert_account_field field).map
    (fun res => match res with
      | some f => fs ++ [f]
      | none => fs)

/-- A concrete one-struct file whose single field carries a bare
`#[account]`. -/
def c10Items : Items :=
  .cons (.istruct
    ⟨"Initialize", .publicVis,
     [⟨"derive", "# [derive (Accounts)]", ["Accounts"]⟩],
     [⟨some "user", .path (.cons (.mk "Signer" .noArgs) .nil), .publicVis,
       [⟨"account", "# [account]", []⟩]⟩]⟩) .nil

end Stylus

namespace Stylus

/-! # Theorems -/

/-! ## Shared lemmas about trimming and the constraint scanner -/

lemma trimL_ws_append {ws x : List Char} (h : ∀ c ∈ ws, isWs c = true) :
    trimL (ws ++ x) = trimL x := by
  unfold trimL
  rw [List.dropWhile_append]
  simp [List.dropWhile_eq_nil_iff.2 h]

lemma trimL_eq_nil_iff {x : List Char} : trimL x = [] ↔ ∀ c ∈ x, isWs c = true := by
  unfold trimL
  constructor
  · intro h c hc
    have h2 : ∀ c ∈ (x.dropWhile isWs).reverse, isWs c = true := by
      rw [← List.dropWhile_eq_nil_iff (p := isWs)]
      simpa using h
    have h3 : ∀ c ∈ x.dropWhile isWs, isWs c = true := by
      intro c hc2; exact h2 c (List.mem_reverse.2 hc2)
    have hx : c ∈ x.takeWhile isWs ++ x.dropWhile isWs := by
      rw [List.takeWhile_append_dropWhile isWs x]; exact hc
    rcases List.mem_append.1 hx with h4 | h4
    · exact List.mem_takeWhile_imp h4
    · exact h3 c h4
  · intro h
    have h1 : x.dropWhile isWs = [] := List.dropWhile_eq_nil_iff.2 h
    simp [h1]

lemma cinv_step {cs : CScanSt} {ss : SpecSplitSt} (h : cinv cs ss) (c : Char) :
    cinv (cstep cs c) (sstep ss c) := by
  obtain ⟨hd, hs, ws, hws, hc⟩ := h
  by_cases h1 : c = '(' ∨ c = '[' ∨ c = '{'
  · refine ⟨by simp [cstep, sstep, h1, hd], by simp [cstep, sstep, h1, hs], ws, hws, ?_⟩
    simp [cstep, sstep, h1, hc]
  · by_cases h2 : c = ')' ∨ c = ']' ∨ c = '}'
    · refine ⟨by simp [cstep, sstep, h1, h2, hd],
        by simp [cstep, sstep, h1, h2, hs], ws, hws, ?_⟩
      simp [cstep, sstep, h1, h2, hc]
    · by_cases h3 : c = ',' ∧ cs.depth = 0
      · have h3' : c = ',' ∧ ss.depth = 0 := ⟨h3.1, hd ▸ h3.2⟩
        have htr : trimL cs.current = trimL ss.current := by
          rw [hc]; exact trimL_ws_append hws
        simp only [cstep, sstep, if_neg h1, if_neg h2, if_pos h3, if_pos h3']
        by_cases h4 : trimL cs.current = []
        · rw [if_pos h4]
          refine ⟨by simp [hd], ?_, cs.current, trimL_eq_nil_iff.1 h4, by simp [hc]⟩
          simp [List.filter_append, hs, List.filter_cons, htr ▸ h4]
        · rw [if_neg h4]
          refine ⟨by simp [hd], ?_, [], by simp, by simp⟩
          have h5 : trimL ss.current ≠ [] := htr ▸ h4
          simp [List.filter_append, hs, htr, List.filter_cons, h5]
      · have h3' : ¬ (c = ',' ∧ ss.depth = 0) := by rw [← hd]; exact h3
        refine ⟨by simp [cstep, sstep, h1, h2, h3, h3', hd],
          by simp [cstep, sstep, h1, h2, h3, h3', hs], ws, hws, ?_⟩
        simp [cstep, sstep, h1, h2, h3, h3', hc]

lemma cinv_foldl (content : List Char) :
    ∀ cs ss, cinv cs ss → cinv (content.foldl cstep cs) (content.foldl sstep ss) := by
  induction content with
  | nil => intro cs ss h; exact h
  | cons c rest ih => intro cs ss h; exact ih _ _ (cinv_step h c)

lemma scanSegs_eq_spec (content : List Char) :
    scanSegs content = ((specSplitRaw content).map trimL).filter (· ≠ []) := by
  have h0 : cinv ⟨[], [], 0⟩ ⟨[], [], 0⟩ := ⟨rfl, rfl, [], by simp, by simp⟩
  obtain ⟨hd, hs, ws, hws, hc⟩ := cinv_foldl content _ _ h0
  unfold scanSegs specSplitRaw
  dsimp only
  have htr : trimL (content.foldl cstep ⟨[], [], 0⟩).current
      = trimL (content.foldl sstep ⟨[], [], 0⟩).current := by
    rw [hc]; exact trimL_ws_append hws
  by_cases h4 : trimL (content.foldl cstep ⟨[], [], 0⟩).current = []
  · rw [if_pos h4]
    simp [List.filter_append, hs, List.filter_cons, htr ▸ h4]
  · rw [if_neg h4]
    have h5 : trimL (content.foldl sstep ⟨[], [], 0⟩).current ≠ [] := htr ▸ h4
    simp [List.filter_append, hs, htr, List.filter_cons, h5]

/-! ## C4 -/

/-- C4: for every argument text, the constraint scanner splits on commas only
at bracket depth 0 (depth counted over `(`,`[`,`{` and their closers), trims
each segment, drops empty segments, and splits each segment at its first `=`
into a trimmed name and a trimmed verbatim value (no `=` means a value-less
constraint); in particular `"init, payer = authority, space = 8 + 32"` parses
to exactly `[("init", None), ("payer", Some "authority"),
("space", Some "8 + 32")]`. -/
theorem constraint_scanner_matches_spec :
    (∀ content : String, parse_constraint_content content = spec_constraint_split content) ∧
    parse_constraint_content "init, payer = authority, space = 8 + 32" =
      [Constraint.without_value "init", Constraint.with_value "payer" "authority",
       Constraint.with_value "space" "8 + 32"] := by
  constructor
  · intro content
    unfold parse_constraint_content spec_constraint_split
    rw [scanSegs_eq_spec]
  · decide

/-! ## C7 -/

/-- C7: divergence between the context resolver and the spec/classifier on
reference types.  The claim says a parameter typed `&Context<Initialize>`
(one leading reference marker) is context-bearing and resolves "Initialize",
exactly like `Context<Initialize>`.  The code's `get_context_info` inspects
only bare path types: on the reference type it returns `(false, none)`, even
though the classifier `has_context_type` — used to decide that the enclosing
function *is* an instruction — strips the reference and accepts the same
type, and `get_context_info` on the bare type resolves "Initialize". -/
theorem context_resolver_drops_references :
    get_context_info refCtxInitializeTy = (false, none) ∧
    has_context_type refCtxInitializeTy = true ∧
    get_context_info ctxInitializeTy = (true, some "Initialize") := by
  refine ⟨by decide, rfl, by decide⟩

/-! ## C8 -/

/-- C8: divergence of the canonical type renderer from whitespace
insensitivity.  `"A  <B"` and `"A <B"` render the same token sequence
`A`,`<`,`B` and differ only in the amount of whitespace between `A` and `<`,
yet the normalization chain maps the first to `"A <B"` and the second to
`"A<B"`: the single-space `replace` patterns do not remove the residual
space of a double space before `<`, so the produced canonical texts
differ. -/
theorem format_type_not_ws_insensitive :
    format_type_str "A  <B" = "A <B" ∧
    format_type_str "A <B" = "A<B" ∧
    ("A <B" : String) ≠ "A<B" := by
  refine ⟨by decide, by decide, by decide⟩

/-! ## C10

The conversion pipeline has a single error site
(`process_account_constraints`), so every error anywhere in `convert_file`
is the `Parse` error "Failed to parse account attribute"; and the presence
of a bare `#[account]` on a named field of an account-validation struct
forces an error.  The lemmas below establish both facts level by level
(attribute, field fold, struct fold, item, item list). -/

lemma pac_error_eq (a : SynAttr) (e : ParseError)
    (h : process_account_constraints a = .error e) :
    e = ParseError.parse "Failed to parse account attribute" := by
  cases hf : findIdx '(' a.tokens.data with
  | none =>
    simp only [process_account_constraints, hf, Except.error.injEq] at h
    exact h.symm
  | some start =>
    cases hr : rfindIdx ')' a.tokens.data with
    | none =>
      simp only [process_account_constraints, hf, hr, Except.error.injEq] at h
      exact h.symm
    | some stop =>
      simp only [process_account_constraints, hf, hr] at h
      exact Except.noConfusion h

lemma pac_bare_error (a : SynAttr) (h : attr_is_bare_account a = true) :
    process_account_constraints a =
      .error (.parse "Failed to parse account attribute") := by
  have h2 : a.pathIdent = "account" ∧ findIdx '(' a.tokens.data = none := by
    simpa [attr_is_bare_account, Option.isNone_iff_eq_none] using h
  simp only [process_account_constraints, h2.2]

lemma accountFieldStep_error_eq (acc : AccountField) (a : SynAttr) (e : ParseError)
    (h : accountFieldStep acc a = .error e) :
    e = ParseError.parse "Failed to parse account attribute" := by
  unfold accountFieldStep at h
  by_cases hacc : a.pathIdent = "account"
  · rw [if_pos hacc] at h
    cases hpac : process_account_constraints a with
    | ok cs => rw [hpac] at h; simp [Except.map] at h
    | error e3 =>
      rw [hpac] at h
      have h' : (Except.error e3 : Except ParseError AccountField) = .error e := h
      have he := Except.error.inj h'
      cases he
      exact pac_error_eq a _ hpac
  · rw [if_neg hacc] at h
    exact Except.noConfusion h

lemma accountFieldStep_bare (acc : AccountField) (a : SynAttr)
    (h : attr_is_bare_account a = true) :
    accountFieldStep acc a = .error (.parse "Failed to parse account attribute") := by
  have h2 : a.pathIdent = "account" ∧ findIdx '(' a.tokens.data = none := by
    simpa [attr_is_bare_account, Option.isNone_iff_eq_none] using h
  unfold accountFieldStep
  rw [if_pos h2.1, pac_bare_error a h]
  rfl

lemma foldAttrs_error_eq (attrs : List SynAttr) :
    ∀ (acc : AccountField) (e : ParseError),
      attrs.foldlM accountFieldStep acc = .error e →
      e = ParseError.parse "Failed to parse account attribute" := by
  induction attrs with
  | nil =>
    intro acc e h
    rw [List.foldlM_nil] at h
    exact Except.noConfusion h
  | cons a as ih =>
    intro acc e h
    rw [List.foldlM_cons] at h
    cases hstep : accountFieldStep acc a with
    | error e2 =>
      rw [hstep] at h
      have h' : (Except.error e2 : Except ParseError AccountField) = .error e := h
      have he := Except.error.inj h'
      cases he
      exact accountFieldStep_error_eq acc a _ hstep
    | ok acc2 =>
      rw [hstep] at h
      exact ih acc2 e h

lemma foldAttrs_bare_error (attrs : List SynAttr) :
    attrs.any attr_is_bare_account = true →
    ∀ acc : AccountField,
      attrs.foldlM accountFieldStep acc =
        .error (.parse "Failed to parse account attribute") := by
  induction attrs with
  | nil => intro hbad; simp at hbad
  | cons a as ih =>
    intro hbad acc
    rw [List.foldlM_cons]
    rw [List.any_cons, Bool.or_eq_true] at hbad
    rcases hbad with ha | has
    · rw [accountFieldStep_bare acc a ha]
      rfl
    · cases hstep : accountFieldStep acc a with
      | error e2 =>
        rw [accountFieldStep_error_eq acc a e2 hstep]
        rfl
      | ok acc2 =>
        exact ih has acc2

lemma convert_account_field_error_eq (f : FieldSyn) (e : ParseError)
    (h : convert_account_field f = .error e) :
    e = ParseError.parse "Failed to parse account attribute" := by
  cases hid : f.ident with
  | none =>
    simp only [convert_account_field, hid] at h
    exact Except.noConfusion h
  | some n =>
    simp only [convert_account_field, hid] at h
    have h' : (f.attrs.foldlM accountFieldStep ⟨n, format_type f.ty, []⟩).map some
        = .error e := h
    cases hfold : f.attrs.foldlM accountFieldStep ⟨n, format_type f.ty, []⟩ with
    | ok acc => rw [hfold] at h'; simp [Except.map] at h'
    | error e3 =>
      rw [hfold] at h'
      have h'' : (Except.error e3 : Except ParseError (Option AccountField)) = .error e := h'
      have he := Except.error.inj h''
      cases he
      exact foldAttrs_error_eq f.attrs _ _ hfold

lemma convert_account_field_bare (f : FieldSyn)
    (hbad : field_has_bare_account f = true) :
    convert_account_field f = .error (.parse "Failed to parse account attribute") := by
  have h2 : f.ident.isSome = true ∧ f.attrs.any attr_is_bare_account = true := by
    simpa [field_has_bare_account, Bool.and_eq_true] using hbad
  obtain ⟨n, hid⟩ := Option.isSome_iff_exists.mp h2.1
  simp only [convert_account_field, hid]
  show (f.attrs.foldlM accountFieldStep ⟨n, format_type f.ty, []⟩).map some = _
  rw [foldAttrs_bare_error f.attrs h2.2 ⟨n, format_type f.ty, []⟩]
  rfl

lemma accountStructStep_error_eq (fs : List AccountField) (f : FieldSyn) (e : ParseError)
    (h : accountStructStep fs f = .error e) :
    e = ParseError.parse "Failed to parse account attribute" := by
  unfold accountStructStep at h
  cases hcf : convert_account_field f with
  | ok res => rw [hcf] at h; simp [Except.map] at h
  | error e3 =>
    rw [hcf] at h
    have h' : (Except.error e3 : Except ParseError (List AccountField)) = .error e := h
    have he := Except.error.inj h'
    cases he
    exact convert_account_field_error_eq f _ hcf

lemma accountStructStep_bare (fs : List AccountField) (f : FieldSyn)
    (hbad : field_has_bare_account f = true) :
    accountStructStep fs f = .error (.parse "Failed to parse account attribute") := by
  unfold accountStructStep
  rw [convert_account_field_bare f hbad]
  rfl

lemma foldFields_error_eq (fields : List FieldSyn) :
    ∀ (fs : List AccountField) (e : ParseError),
      fields.foldlM accountStructStep fs = .error e →
      e = ParseError.parse "Failed to parse account attribute" := by
  induction fields with
  | nil =>
    intro fs e h
    rw [List.foldlM_nil] at h
    exact Except.noConfusion h
  | cons f fl ih =>
    intro fs e h
    rw [List.foldlM_cons] at h
    cases hstep : accountStructStep fs f with
    | error e2 =>
      rw [hstep] at h
      have h' : (Except.error e2 : Except ParseError (List AccountField)) = .error e := h
      have he := Except.error.inj h'
      cases he
      exact accountStructStep_error_eq fs f _ hstep
    | ok fs2 =>
      rw [hstep] at h
      exact ih fs2 e h

lemma foldFields_bare_error (fields : List FieldSyn) :
    fields.any field_has_bare_account = true →
    ∀ fs : List AccountField,
      fields.foldlM accountStructStep fs =
        .error (.parse "Failed to parse account attribute") := by
  induction fields with
  | nil => intro hbad; simp at hbad
  | cons f fl ih =>
    intro hbad fs
    rw [List.foldlM_cons]
    rw [List.any_cons, Bool.or_eq_true] at hbad
    rcases hbad with hf | hfl
    · rw [accountStructStep_bare fs f hf]
      rfl
    · cases hstep : accountStructStep fs f with
      | error e2 =>
        rw [accountStructStep_error_eq fs f e2 hstep]
        rfl
      | ok fs2 =>
        exact ih hfl fs2

lemma convert_account_struct_error_eq (s : ItemStruct) (e : ParseError)
    (h : convert_account_struct s = .error e) :
    e = ParseError.parse "Failed to parse account attribute" := by
  have h' : (s.fields.foldlM accountStructStep []).map
      (fun fs => (⟨s.ident, format_visibility s.vis, fs⟩ : Account)) = .error e := h
  cases hfold : s.fields.foldlM accountStructStep [] with
  | ok fs => rw [hfold] at h'; simp [Except.map] at h'
  | error e3 =>
    rw [hfold] at h'
    have h'' : (Except.error e3 : Except ParseError Account) = .error e := h'
    have he := Except.error.inj h''
    cases he
    exact foldFields_error_eq s.fields [] _ hfold

lemma convert_account_struct_bare (s : ItemStruct)
    (hbad : s.fields.any field_has_bare_account = true) :
    convert_account_struct s = .error (.parse "Failed to parse account attribute") := by
  show (s.fields.foldlM accountStructStep []).map
      (fun fs => (⟨s.ident, format_visibility s.vis, fs⟩ : Account)) = _
  rw [foldFields_bare_error s.fields hbad []]
  rfl

lemma process_item_error_eq (prog : Program) (item : Item) (e : ParseError)
    (h : process_item prog item = .error e) :
    e = ParseError.parse "Failed to parse account attribute" := by
  cases item with
  | imod m =>
    cases m with
    | mk ident vis attrs content =>
      by_cases hm : is_anchor_program (.mk ident vis attrs content)
      · simp only [process_item, hm, if_true] at h
        exact Except.noConfusion h
      · simp only [process_item, hm, if_false, Bool.false_eq_true] at h
        exact Except.noConfusion h
  | istruct s =>
    by_cases hs : is_account_struct s = true
    · simp only [process_item, hs, if_true] at h
      cases hcs : convert_account_struct s with
      | ok a => rw [hcs] at h; simp [Except.map] at h
      | error e3 =>
        rw [hcs] at h
        have h' : (Except.error e3 : Except ParseError Program) = .error e := h
        have he := Except.error.inj h'
        cases he
        exact convert_account_struct_error_eq s _ hcs
    · by_cases hr : is_raw_account s = true
      · simp only [process_item, hs, hr, if_true, if_false, Bool.false_eq_true] at h
        exact Except.noConfusion h
      · simp only [process_item, hs, hr, if_false, Bool.false_eq_true] at h
        exact Except.noConfusion h
  | ifn f =>
    simp only [process_item] at h
    exact Except.noConfusion h
  | otherItem =>
    simp only [process_item] at h
    exact Except.noConfusion h

lemma process_item_bare (prog : Program) (s : ItemStruct)
    (hbad : struct_has_bare_account s = true) :
    process_item prog (.istruct s) = .error (.parse "Failed to parse account attribute") := by
  have h2 : is_account_struct s = true ∧ s.fields.any field_has_bare_account = true := by
    simpa [struct_has_bare_account, Bool.and_eq_true] using hbad
  simp only [process_item, h2.1, if_true]
  rw [convert_account_struct_bare s h2.2]
  rfl

lemma processItems_error_eq :
    ∀ (items : Items) (prog : Program) (e : ParseError),
      processItems prog items = .error e →
      e = ParseError.parse "Failed to parse account attribute"
  | .nil, _, _, h => Except.noConfusion h
  | .cons i rest, prog, e, h => by
    simp only [processItems] at h
    cases hpi : process_item prog i with
    | error e2 =>
      rw [hpi] at h
      have h' : (Except.error e2 : Except ParseError Program) = .error e := h
      have he := Except.error.inj h'
      cases he
      exact process_item_error_eq prog i _ hpi
    | ok p2 =>
      rw [hpi] at h
      have h' : processItems p2 rest = .error e := h
      exact processItems_error_eq rest p2 e h'

lemma processItems_bare :
    ∀ (items : Items), items_have_bare_account items = true →
      ∀ prog : Program,
        processItems prog items = .error (.parse "Failed to parse account attribute")
  | .nil, hbad => by simp [items_have_bare_account] at hbad
  | .cons (.istruct s) rest, hbad => by
    intro prog
    simp only [processItems]
    have hor : struct_has_bare_account s = true ∨ items_have_bare_account rest = true := by
      simpa [items_have_bare_account, Bool.or_eq_true] using hbad
    rcases hor with hs | hrest
    · rw [process_item_bare prog s hs]
      rfl
    · cases hpi : process_item prog (.istruct s) with
      | error e2 =>
        rw [process_item_error_eq prog (.istruct s) e2 hpi]
        rfl
      | ok p2 =>
        show processItems p2 rest = _
        exact processItems_bare rest hrest p2
  | .cons (.imod m) rest, hbad => by
    intro prog
    simp only [processItems]
    have hrest : items_have_bare_account rest = true := by
      simpa [items_have_bare_account] using hbad
    cases hpi : process_item prog (.imod m) with
    | error e2 =>
      rw [process_item_error_eq prog (.imod m) e2 hpi]
      rfl
    | ok p2 =>
      show processItems p2 rest = _
      exact processItems_bare rest hrest p2
  | .cons (.ifn f) rest, hbad => by
    intro prog
    simp only [processItems]
    have hrest : items_have_bare_account rest = true := by
      simpa [items_have_bare_account] using hbad
    cases hpi : process_item prog (.ifn f) with
    | error e2 =>
      rw [process_item_error_eq prog (.ifn f) e2 hpi]
      rfl
    | ok p2 =>
      show processItems p2 rest = _
      exact processItems_bare rest hrest p2
  | .cons .otherItem rest, hbad => by
    intro prog
    simp only [processItems]
    have hrest : items_have_bare_account rest = true := by
      simpa [items_have_bare_account] using hbad
    cases hpi : process_item prog .otherItem with
    | error e2 =>
      rw [process_item_error_eq prog .otherItem e2 hpi]
      rfl
    | ok p2 =>
      show processItems p2 rest = _
      exact processItems_bare rest hrest p2

/-- C10: for every syntax tree in which some account-validation struct
(`derive(Accounts)`) has a named field carrying a bare `#[account]`
attribute — an `account`-identified attribute whose token rendering has no
`(`, i.e. no parenthesized argument list — conversion of the whole tree
fails: `convert_file` returns the `Parse` error
"Failed to parse account attribute" and no `Program` model is produced,
instead of the field simply receiving zero constraints. -/
theorem bare_account_attribute_fails_conversion (items : Items)
    (h : items_have_bare_account items = true) :
    convert_file items = .error (.parse "Failed to parse account attribute") := by
  unfold convert_file
  exact processItems_bare items h ⟨[], [], [], none⟩

/-- Witness for C10 at a concrete one-struct file whose single field
carries a bare `#[account]`. -/
theorem bare_account_attribute_fails_conversion_witness :
    items_have_bare_account c10Items = true ∧
    convert_file c10Items = .error (.parse "Failed to parse account attribute") :=
  ⟨by decide, bare_account_attribute_fails_conversion c10Items (by decide)⟩

lemma getLast?_cons_or {α : Type} (a : α) (l : List α) :
    (a :: l).getLast? = match l.getLast? with
      | some v => some v
      | none => some a := by
  cases l with
  | nil => rfl
  | cons b m =>
    rw [List.getLast?_cons_cons]
    cases h : (b :: m).getLast? with
    | none => simp [List.getLast?_eq_none_iff] at h
    | some v => rfl

lemma convertParamStep_ctx (ins : Instruction) (arg : FnArg) :
    (convertParamStep ins arg).context_type =
      match (match arg with
        | FnArg.typed _ ty => if (get_context_info ty).1 then (get_context_info ty).2 else none
        | FnArg.receiver => none) with
      | some v => some v
      | none => ins.context_type := by
  cases arg with
  | receiver => rfl
  | typed pat ty =>
    show (convertParamStep ins (.typed pat ty)).context_type = _
    unfold convertParamStep
    cases hgi : get_context_info ty with
    | mk b o =>
      cases b <;> cases o <;> simp [hgi]

lemma convert_fold_ctx (inputs : List FnArg) :
    ∀ ins : Instruction,
      (inputs.foldl convertParamStep ins).context_type =
        match (inputs.filterMap fun arg =>
          match arg with
          | FnArg.typed _ ty => if (get_context_info ty).1 then (get_context_info ty).2 else none
          | FnArg.receiver => none).getLast? with
        | some v => some v
        | none => ins.context_type := by
  induction inputs with
  | nil => intro ins; rfl
  | cons a t ih =>
    intro ins
    rw [List.foldl_cons, ih, List.filterMap_cons, convertParamStep_ctx]
    cases hfa : (match a with
        | FnArg.typed _ ty => if (get_context_info ty).1 then (get_context_info ty).2 else none
        | FnArg.receiver => none) with
    | none => rfl
    | some v =>
      rw [getLast?_cons_or]
      cases (List.filterMap _ t).getLast? <;> rfl

lemma linkParamStep_eq (st : Option String) (pr : NormalizedParameter) :
    linkParamStep st pr =
      match (if pr.is_context then extract_context_type pr.ty else none) with
      | some v => some v
      | none => st := by
  unfold linkParamStep
  cases pr.is_context with
  | false => rfl
  | true => cases extract_context_type pr.ty <;> rfl

lemma link_fold (params : List NormalizedParameter) :
    ∀ st : Option String,
      params.foldl linkParamStep st =
        match (params.filterMap fun pr =>
          if pr.is_context then extract_context_type pr.ty else none).getLast? with
        | some v => some v
        | none => st := by
  induction params with
  | nil => intro st; rfl
  | cons a t ih =>
    intro st
    rw [List.foldl_cons, ih, List.filterMap_cons, linkParamStep_eq]
    cases hfa : (if a.is_context then extract_context_type a.ty else none) with
    | none => rfl
    | some v =>
      rw [getLast?_cons_or]
      cases (List.filterMap _ t).getLast? <;> rfl

/-- C1 (amended): for every instruction, the context-struct reference ends up
set from the *last* context-bearing parameter that resolves a struct name —
each later resolving context parameter overwrites the reference, both during
conversion (`set_context_type` assigns unconditionally) and during linking
(the parameter loop has no break); a reference that is already set when
linking reaches an instruction is left untouched, because linking skips such
instructions wholesale. -/
theorem context_reference_last_wins :
    (∀ fn : ItemFn, (convert_instruction fn).context_type =
      (fn.sig.inputs.filterMap fun arg =>
        match arg with
        | FnArg.typed _ ty => if (get_context_info ty).1 then (get_context_info ty).2 else none
        | FnArg.receiver => none).getLast?) ∧
    (∀ ins : NormalizedInstruction, ins.account_struct_name = none →
      (link_instruction ins).account_struct_name =
        (ins.parameters.filterMap fun pr =>
          if pr.is_context then extract_context_type pr.ty else none).getLast?) ∧
    (∀ (ins : NormalizedInstruction) (nm : String),
      ins.account_struct_name = some nm → link_instruction ins = ins) := by
  refine ⟨?_, ?_, ?_⟩
  · intro fn
    unfold convert_instruction
    rw [convert_fold_ctx]
    cases fn.sig.output <;>
      cases (fn.sig.inputs.filterMap fun arg =>
        match arg with
        | FnArg.typed _ ty => if (get_context_info ty).1 then (get_context_info ty).2 else none
        | FnArg.receiver => none).getLast? <;> rfl
  · intro ins h
    unfold link_instruction
    rw [h]
    show (({ ins with account_struct_name := ins.parameters.foldl linkParamStep none }
      : NormalizedInstruction)).account_struct_name = _
    rw [link_fold]
    cases (ins.parameters.filterMap fun pr =>
      if pr.is_context then extract_context_type pr.ty else none).getLast? <;> rfl
  · intro ins nm h
    unfold link_instruction
    rw [h]

/-- C1 counterexample: `pub fn update(a: Context<A>, b: Context<B>)` has two
context-bearing parameters both resolving a struct name; the claim says the
first ("A") wins and is never overwritten, but conversion produces
`context_type = some "B"`, and linking an unset instruction with the same two
parameters also produces `some "B"`. -/
theorem context_reference_first_wins_cex :
    ((convert_instruction twoCtxFn).context_type = some "B" ∧
      (convert_instruction twoCtxFn).context_type ≠ some "A") ∧
    ((link_instruction twoCtxInstr).account_struct_name = some "B" ∧
      (link_instruction twoCtxInstr).account_struct_name ≠ some "A") := by
  refine ⟨⟨by decide, by decide⟩, ⟨by decide, by decide⟩⟩

/-- C1 witness: the amended theorem applied at concrete instructions — one
with an unset reference and two resolving context parameters, one with a
pre-set reference. -/
theorem context_reference_last_wins_witness :
    (twoCtxInstr.account_struct_name = none ∧
      (link_instruction twoCtxInstr).account_struct_name =
        (twoCtxInstr.parameters.filterMap fun pr =>
          if pr.is_context then extract_context_type pr.ty else none).getLast?) ∧
    (setRefInstr.account_struct_name = some "C" ∧ link_instruction setRefInstr = setRefInstr) :=
  ⟨⟨rfl, context_reference_last_wins.2.1 twoCtxInstr rfl⟩,
   ⟨rfl, context_reference_last_wins.2.2 setRefInstr "C" rfl⟩⟩


lemma validate_program_id (q : NormalizedProgram) : (validate_program q).id = q.id := rfl

lemma infer_missing_semantics_id (q : NormalizedProgram) :
    (infer_missing_semantics q).id = q.id := rfl

lemma link_instructions_id (q : NormalizedProgram) :
    (link_instructions_to_accounts q).id = q.id := rfl

lemma normalize_ok_id (t : Int) (p : Program) (n : NormalizedProgram)
    (h : normalize_program t p = .ok n) : n.id = generate_program_id t p := by
  unfold normalize_program at h
  cases hx : extract_program_name p with
  | error e => rw [hx] at h; exact absurd h (by simp)
  | ok name =>
    rw [hx] at h
    simp only [Except.ok.injEq] at h
    subst h
    rw [validate_program_id, infer_missing_semantics_id, link_instructions_id]
    show (match p.source_path with
      | some sp => { NormalizedProgram.new (generate_program_id t p) name with
          source_info := some ⟨sp, none⟩ }
      | none => NormalizedProgram.new (generate_program_id t p) name).id = _
    cases p.source_path <;> rfl

lemma normalize_eq_ok (t : Int) (p : Program) (name : String)
    (hx : extract_program_name p = .ok name) :
    ∃ n, normalize_program t p = .ok n := by
  unfold normalize_program
  rw [hx]
  exact ⟨_, rfl⟩

/-- C2: `normalize(P)` returns an error exactly when `P` has no program
modules and no program name is derivable from the source path's file stem;
that error is `MissingInfo` with the source's message (no other error is ever
returned, so there is never a partial result), and in every other case
normalization succeeds. -/
theorem normalize_error_iff_missing_name (now : Int) (p : Program) :
    (normalize_program now p = .error (.missingInfo "Could not determine program name")
      ↔ (p.program_modules = [] ∧ p.source_path.bind fileStem = none)) ∧
    (∀ e, normalize_program now p = .error e →
      e = .missingInfo "Could not determine program name") := by
  cases hm : p.program_modules with
  | cons m ms =>
    have hok : extract_program_name p = .ok m.name := by
      simp only [extract_program_name, hm]
    constructor
    · simp only [normalize_program, hok, hm]
      constructor
      · intro h; exact absurd h (by simp)
      · intro h; simp at h
    · intro e h
      simp only [normalize_program, hok] at h
      simp at h
  | nil =>
    cases hsp : p.source_path with
    | some sp =>
      cases hfs : fileStem sp with
      | some nm =>
        have hok : extract_program_name p = .ok nm := by
          simp only [extract_program_name, hm, hsp, hfs]
        constructor
        · simp only [normalize_program, hok, hsp, hfs]
          constructor
          · intro h; exact absurd h (by simp)
          · intro h
            simp only [Option.some_bind, hfs] at h
            exact absurd h.2 (by simp)
        · intro e h
          simp only [normalize_program, hok] at h
          simp at h
      | none =>
        have herr : extract_program_name p
            = .error (.missingInfo "Could not determine program name") := by
          simp only [extract_program_name, hm, hsp, hfs]
        refine ⟨?_, ?_⟩
        · simp only [normalize_program, herr, hm, hsp, hfs]
          simp [Option.some_bind, hfs]
        · intro e h
          simp only [normalize_program, herr] at h
          simp at h
          exact h.symm
    | none =>
      have herr : extract_program_name p
          = .error (.missingInfo "Could not determine program name") := by
        simp only [extract_program_name, hm, hsp]
      refine ⟨?_, ?_⟩
      · simp only [normalize_program, herr, hm, hsp]
        simp
      · intro e h
        simp only [normalize_program, herr] at h
        simp at h
        exact h.symm

/-- C3: normalization is deterministic — its result does not depend on the
timestamp parameter that stands for `chrono::Utc::now().timestamp()`, so two
calls on structurally equal inputs yield structurally equal outputs including
the validation-issue order; and whenever normalization succeeds, the program
id is derived from the source path, or else from the first module's name —
never from the timestamp fallback. -/
theorem normalize_deterministic :
    (∀ (t1 t2 : Int) (p : Program), normalize_program t1 p = normalize_program t2 p) ∧
    (∀ (t : Int) (p : Program) (n : NormalizedProgram), normalize_program t p = .ok n →
      (∃ sp, p.source_path = some sp ∧ n.id = "program:" ++ sp) ∨
      (p.source_path = none ∧ ∃ m ms, p.program_modules = m :: ms ∧
        n.id = "program:" ++ m.name)) := by
  constructor
  · intro t1 t2 p
    have hgen : generate_program_id t1 p = generate_program_id t2 p ∨
        (p.source_path = none ∧ p.program_modules = []) := by
      unfold generate_program_id
      cases hsp : p.source_path with
      | some sp => exact .inl rfl
      | none =>
        cases hm : p.program_modules with
        | cons m ms => exact .inl rfl
        | nil => exact .inr ⟨rfl, rfl⟩
    rcases hgen with hgen | ⟨hsp, hm⟩
    · unfold normalize_program
      rw [hgen]
    · have herr : extract_program_name p
          = .error (.missingInfo "Could not determine program name") := by
        simp only [extract_program_name, hm, hsp]
      unfold normalize_program
      rw [herr]
  · intro t p n h
    have hid := normalize_ok_id t p n h
    unfold generate_program_id at hid
    cases hsp : p.source_path with
    | some sp =>
      rw [hsp] at hid
      exact .inl ⟨sp, rfl, hid⟩
    | none =>
      rw [hsp] at hid
      cases hm : p.program_modules with
      | cons m ms =>
        rw [hm] at hid
        exact .inr ⟨rfl, m, ms, rfl, hid⟩
      | nil =>
        -- impossible: extract_program_name fails, normalize cannot be ok
        have herr : extract_program_name p
            = .error (.missingInfo "Could not determine program name") := by
          simp only [extract_program_name, hm, hsp]
        unfold normalize_program at h
        rw [herr] at h
        exact absurd h (by simp)


/-- C2 witness: the theorem applied to the concrete program with no modules
and no source path. -/
theorem normalize_error_iff_missing_name_witness :
    normalize_program 0 ⟨[], [], [], none⟩
      = .error (.missingInfo "Could not determine program name") :=
  (normalize_error_iff_missing_name 0 ⟨[], [], [], none⟩).1.mpr ⟨rfl, rfl⟩

/-- C3 witness: the theorem applied to a concrete module-less program with a
source path; its id is derived from the path. -/
theorem normalize_deterministic_witness :
    (∃ sp, detWitnessProg.source_path = some sp ∧ detWitnessOut.id = "program:" ++ sp) ∨
    (detWitnessProg.source_path = none ∧ ∃ m ms, detWitnessProg.program_modules = m :: ms ∧
      detWitnessOut.id = "program:" ++ m.name) :=
  normalize_deterministic.2 0 detWitnessProg detWitnessOut (by decide)

lemma filterMap_init_nameOps (instr : NormalizedInstruction)
    (account : NormalizedAccountStruct) :
    (inferNameOps instr account).filterMap (fun op =>
      match op with
      | .Initialize target payer => some (target, payer)
      | _ => none) = [] := by
  unfold inferNameOps
  split_ifs with h1 h2 h3
  · rfl
  · cases hx : account.find_field "from" <;> cases hy : account.find_field "to" <;>
      simp [hx, hy]
  · cases hx : account.fields.find? (fun f => f.hasConstraint "close") <;> simp [hx]
  · rfl

/-- C5: for every instruction whose body holds no operation list and whose
account-struct reference resolves to a declared account struct, operation
inference emits exactly one `Initialize` per field of that struct carrying an
"init" constraint — target the field's name, payer that field's "payer"
constraint value or the literal "payer" when absent (the name-dispatch extras
contribute no `Initialize`); the inferred list replaces the body only when
non-empty, and an empty result leaves the body (Unknown) unchanged. -/
theorem operation_inference_emits_initializes (p : NormalizedProgram)
    (instr : NormalizedInstruction) (account : NormalizedAccountStruct) (nm : String)
    (hbody : ∀ ops, instr.body ≠ some (.basic ops))
    (href : instr.account_struct_name = some nm)
    (hfind : p.find_account_struct nm = some account) :
    ((infer_operations_from_account instr account).filterMap (fun op =>
        match op with
        | .Initialize target payer => some (target, payer)
        | _ => none)
      = account.fields.filterMap (fun f =>
          if f.hasConstraint "init" then
            some (f.name,
              match f.constraints.find? (·.constraint_type = "payer") with
              | some c =>
                match c.value with
                | some v => v
                | none => "payer"
              | none => "payer")
          else none)) ∧
    (infer_operations_from_account instr account ≠ [] →
      inferInstrStep p instr
        = { instr with body := some (.basic (infer_operations_from_account instr account)) }) ∧
    (infer_operations_from_account instr account = [] → inferInstrStep p instr = instr) := by
  refine ⟨?_, ?_, ?_⟩
  · unfold infer_operations_from_account
    rw [List.filterMap_append, filterMap_init_nameOps, List.append_nil]
    unfold inferInitOps
    rw [List.filterMap_filterMap]
    congr 1
    funext f
    by_cases hinit : f.hasConstraint "init"
    · simp only [hinit, if_pos]
      rcases hp : f.constraints.find? (·.constraint_type = "payer") with _ | c
      · simp [payerOf, hp]
      · rcases hv : c.value with _ | v <;> simp [payerOf, hp, hv]
    · simp [hinit]
  · intro hne
    rcases hb : instr.body with _ | b
    · simp only [inferInstrStep, hb, href, hfind]
      rw [if_neg hne]
    · rcases b with _ | ops
      · simp only [inferInstrStep, hb, href, hfind]
        rw [if_neg hne]
      · exact absurd hb (hbody ops)
  · intro he
    rcases hb : instr.body with _ | b
    · simp only [inferInstrStep, hb, href, hfind]
      rw [if_pos he]
    · rcases b with _ | ops
      · simp only [inferInstrStep, hb, href, hfind]
        rw [if_pos he]
      · exact absurd hb (hbody ops)

/-- C5 witness: the theorem applied at a concrete program, instruction and
account struct. -/
theorem operation_inference_emits_initializes_witness :
    inferInstrStep opsWitnessProg opsWitnessInstr
      = { opsWitnessInstr with
          body := some (.basic (infer_operations_from_account opsWitnessInstr opsWitnessAccount)) } :=
  (operation_inference_emits_initializes opsWitnessProg opsWitnessInstr opsWitnessAccount
    "Initialize" (by intro ops h; simp [opsWitnessInstr] at h) rfl rfl).2.1 (by decide)


lemma add_constraint_constraints (f : NormalizedAccountField) (c : NormalizedConstraint) :
    (f.add_constraint c).constraints = f.constraints ++ [c] := rfl

lemma add_constraint_related (f : NormalizedAccountField) (c : NormalizedConstraint) :
    (f.add_constraint c).inferred_info.related_account =
      if c.constraint_type = "payer" then
        match c.value with
        | some v => some v
        | none => f.inferred_info.related_account
      else f.inferred_info.related_account := by
  unfold NormalizedAccountField.add_constraint
  by_cases h1 : c.constraint_type = "mut"
  · simp [h1]
  · by_cases h2 : c.constraint_type = "signer"
    · simp [h1, h2]
    · by_cases h3 : c.constraint_type = "init"
      · simp [h1, h2, h3]
      · by_cases h4 : c.constraint_type = "payer"
        · cases hv : c.value <;> simp [h1, h2, h3, h4, hv]
        · simp [h1, h2, h3, h4]

lemma add_constraint_related_ne (f : NormalizedAccountField) (c : NormalizedConstraint)
    (h : f.inferred_info.related_account ≠ none) :
    (f.add_constraint c).inferred_info.related_account ≠ none := by
  rw [add_constraint_related]
  split_ifs with h1
  · cases c.value <;> simp [h]
  · exact h

lemma foldl_add_constraint_constraints (cs : List NormalizedConstraint) :
    ∀ f : NormalizedAccountField,
      (cs.foldl NormalizedAccountField.add_constraint f).constraints = f.constraints ++ cs := by
  induction cs with
  | nil => intro f; simp
  | cons c rest ih =>
    intro f
    rw [List.foldl_cons, ih, add_constraint_constraints, List.append_assoc]
    rfl

lemma foldl_add_related_of_payer (cs : List NormalizedConstraint) :
    ∀ f : NormalizedAccountField,
      ((∃ c ∈ cs, c.constraint_type = "payer" ∧ c.value ≠ none) ∨
        f.inferred_info.related_account ≠ none) →
      (cs.foldl NormalizedAccountField.add_constraint f).inferred_info.related_account ≠ none := by
  induction cs with
  | nil =>
    intro f h
    rcases h with ⟨c, hc, _⟩ | h
    · exact absurd hc (List.not_mem_nil c)
    · exact h
  | cons c rest ih =>
    intro f h
    rw [List.foldl_cons]
    rcases h with ⟨c2, hc2, ht, hv⟩ | h
    · rcases List.mem_cons.1 hc2 with rfl | hmem
      · apply ih
        right
        rw [add_constraint_related, if_pos ht]
        cases hcv : c2.value with
        | none => exact absurd hcv hv
        | some v => simp
      · exact ih _ (.inl ⟨c2, hmem, ht, hv⟩)
    · exact ih _ (.inr (add_constraint_related_ne f c h))

lemma payerRelated_copy (f : AccountField) : payerRelated (normalize_account_field f) := by
  intro hex
  unfold normalize_account_field at hex ⊢
  apply foldl_add_related_of_payer
  left
  rwa [foldl_add_constraint_constraints, List.nil_append] at hex

lemma fieldConstraintsToAdd_no_payer (f : NormalizedAccountField) :
    ∀ c ∈ fieldConstraintsToAdd f, c.value = none := by
  intro c hc
  unfold fieldConstraintsToAdd at hc
  rcases List.mem_append.1 hc with h | h <;> split_ifs at h <;> simp_all

lemma payerRelated_fieldStep (g : NormalizedAccountField) (h : payerRelated g) :
    payerRelated (inferFieldStep g) := by
  intro hex
  unfold inferFieldStep at hex ⊢
  rw [foldl_add_constraint_constraints] at hex
  obtain ⟨c, hc, ht, hv⟩ := hex
  rcases List.mem_append.1 hc with hmem | hmem
  · exact foldl_add_related_of_payer _ _ (.inr (h ⟨c, hmem, ht, hv⟩))
  · exact absurd (fieldConstraintsToAdd_no_payer g c hmem) hv

lemma setRelated_mem {fs : List NormalizedAccountField} {k : Nat} {v : String}
    {g : NormalizedAccountField} (h : g ∈ setRelated fs k v) :
    ∃ g0 ∈ fs, g = g0 ∨
      g = { g0 with inferred_info := { g0.inferred_info with related_account := some v } } := by
  unfold setRelated at h
  obtain ⟨kf, hkf, hg⟩ := List.mem_map.1 h
  have h2 : kf.2 ∈ fs := by
    have := List.enum_eq_zip_range fs
    rw [this] at hkf
    exact (List.of_mem_zip hkf).2
  refine ⟨kf.2, h2, ?_⟩
  dsimp only at hg
  by_cases hk : kf.1 = k
  · rw [if_pos hk] at hg
    exact .inr hg.symm
  · rw [if_neg hk] at hg
    exact .inl hg.symm

lemma payerRelated_applyRel (upds : List (Nat × String)) :
    ∀ fs : List NormalizedAccountField, (∀ g ∈ fs, payerRelated g) →
      ∀ g ∈ applyRelUpdates fs upds, payerRelated g := by
  induction upds with
  | nil => intro fs h g hg; exact h g hg
  | cons u rest ih =>
    intro fs h g hg
    refine ih (setRelated fs u.1 u.2) ?_ g hg
    intro g2 hg2
    obtain ⟨g0, hg0, hcase⟩ := setRelated_mem hg2
    rcases hcase with h5 | h5
    · rw [h5]; exact h g0 hg0
    · rw [h5]; intro _; simp

lemma normalize_ok_account_structs (t : Int) (p : Program) (n : NormalizedProgram)
    (h : normalize_program t p = .ok n) :
    n.account_structs =
      ((p.account_structs.map normalize_account_struct).map inferFieldsAcct).map
        inferRelAcct := by
  unfold normalize_program at h
  cases hx : extract_program_name p with
  | error e => rw [hx] at h; exact absurd h (by simp)
  | ok name =>
    rw [hx] at h
    simp only [Except.ok.injEq] at h
    subst h
    have h1 : ∀ q, (validate_program q).account_structs = q.account_structs := fun _ => rfl
    have h2 : ∀ q, (infer_account_relationships q).account_structs
        = q.account_structs.map inferRelAcct := fun _ => rfl
    have h3 : ∀ q, (infer_field_constraints q).account_structs
        = q.account_structs.map inferFieldsAcct := fun _ => rfl
    have h4 : ∀ q, (infer_instruction_operations q).account_structs
        = q.account_structs := fun _ => rfl
    have h5 : ∀ q, (link_instructions_to_accounts q).account_structs
        = q.account_structs := fun _ => rfl
    unfold infer_missing_semantics
    rw [h1, h2, h3, h4, h5]



lemma relUpdates_mem {account : NormalizedAccountStruct} {j : Nat} {v : String}
    (h : (j, v) ∈ relUpdates account) :
    ∃ i fi fj, account.fields[i]? = some fi ∧ account.fields[j]? = some fj ∧ i ≠ j ∧
      (∃ c ∈ fj.constraints,
        (c.constraint_type = "has_one" ∨ c.constraint_type = "belongs_to") ∧
        c.value = some fi.name) ∧ v = fi.name := by
  unfold relUpdates at h
  obtain ⟨fi, hfi, h⟩ := List.mem_flatMap.1 h
  obtain ⟨fj, hfj, h⟩ := List.mem_flatMap.1 h
  by_cases hij : fi.1 = fj.1
  · rw [if_pos hij] at h; exact absurd h (List.not_mem_nil _)
  · rw [if_neg hij] at h
    obtain ⟨c, hc, hcond⟩ := List.mem_filterMap.1 h
    by_cases hcnd : (c.constraint_type = "has_one" ∨ c.constraint_type = "belongs_to")
        ∧ c.value = some fi.2.name
    · rw [if_pos hcnd] at hcond
      have heq := Option.some.inj hcond
      have h1 : fj.1 = j := congrArg Prod.fst heq
      have h2 : fi.2.name = v := congrArg Prod.snd heq
      refine ⟨fi.1, fi.2, fj.2, ?_, ?_, ?_, ⟨c, hc, hcnd.1, hcnd.2⟩, h2.symm⟩
      · exact List.mem_enum_iff_getElem?.1 hfi
      · rw [← h1]; exact List.mem_enum_iff_getElem?.1 hfj
      · rw [← h1]; exact hij
    · rw [if_neg hcnd] at hcond; exact absurd hcond (by simp)

lemma setRelated_getElem?_ne (fs : List NormalizedAccountField) (k : Nat) (v : String)
    (j : Nat) (h : k ≠ j) : (setRelated fs k v)[j]? = fs[j]? := by
  unfold setRelated
  rw [List.getElem?_map, List.getElem?_enum]
  cases hj : fs[j]? with
  | none => simp [hj]
  | some f => simp [hj, Ne.symm h]

lemma applyRel_getElem?_not_mem (upds : List (Nat × String)) :
    ∀ (fs : List NormalizedAccountField) (j : Nat), (∀ v, (j, v) ∉ upds) →
      (applyRelUpdates fs upds)[j]? = fs[j]? := by
  induction upds with
  | nil => intro fs j h; rfl
  | cons u rest ih =>
    intro fs j h
    have hne : u.1 ≠ j := by
      intro he
      apply h u.2
      have : (j, u.2) = u := by rw [← he]
      rw [this]
      exact List.mem_cons_self u rest
    have hstep : applyRelUpdates fs (u :: rest)
        = applyRelUpdates (setRelated fs u.1 u.2) rest := rfl
    rw [hstep, ih, setRelated_getElem?_ne fs u.1 u.2 j hne]
    intro v hv
    exact h v (List.mem_cons_of_mem _ hv)

/-- C9: adding a constraint of type "payer" with a value to a normalized
account field sets that field's `related_account` to the payer value; hence
in every successfully normalized program, a field carrying a valued "payer"
constraint ends with a non-`None` `related_account` (even without any
"has_one"/"belongs_to" constraint); and relationship inference leaves a
field's entry untouched unless one of its "has_one"/"belongs_to" constraint
values equals another field's name. -/
theorem payer_constraint_sets_related_account :
    (∀ (f : NormalizedAccountField) (v : String) (b : Bool),
      (f.add_constraint ⟨"payer", some v, b⟩).inferred_info.related_account = some v) ∧
    (∀ (t : Int) (p : Program) (n : NormalizedProgram), normalize_program t p = .ok n →
      ∀ a ∈ n.account_structs, ∀ f ∈ a.fields,
        (∃ c ∈ f.constraints, c.constraint_type = "payer" ∧ c.value ≠ none) →
        f.inferred_info.related_account ≠ none) ∧
    (∀ (account : NormalizedAccountStruct) (j : Nat),
      (∀ i fi fj c, account.fields[i]? = some fi → account.fields[j]? = some fj → i ≠ j →
        c ∈ fj.constraints →
        (c.constraint_type = "has_one" ∨ c.constraint_type = "belongs_to") →
        c.value ≠ some fi.name) →
      (applyRelUpdates account.fields (relUpdates account))[j]? = account.fields[j]?) := by
  refine ⟨?_, ?_, ?_⟩
  · intro f v b
    simp [add_constraint_related]
  · intro t p n h a ha f hf hex
    rw [normalize_ok_account_structs t p n h] at ha
    obtain ⟨a1, ha1, rfl⟩ := List.mem_map.1 ha
    obtain ⟨a2, ha2, rfl⟩ := List.mem_map.1 ha1
    obtain ⟨a0, ha0, rfl⟩ := List.mem_map.1 ha2
    have hbase : ∀ g ∈ (inferFieldsAcct (normalize_account_struct a0)).fields,
        payerRelated g := by
      intro g hg
      unfold inferFieldsAcct normalize_account_struct at hg
      dsimp only at hg
      obtain ⟨f1, hf1, rfl⟩ := List.mem_map.1 hg
      obtain ⟨f0, hf0, rfl⟩ := List.mem_map.1 hf1
      exact payerRelated_fieldStep _ (payerRelated_copy f0)
    exact payerRelated_applyRel _ _ hbase f hf hex
  · intro account j h
    apply applyRel_getElem?_not_mem
    intro v hv
    obtain ⟨i, fi, fj, hfi, hfj, hij, ⟨c, hc, hty, hcv⟩, rfl⟩ := relUpdates_mem hv
    exact h i fi fj c hfi hfj hij hc hty hcv

/-- C9 witness: the theorem applied at a concrete field, at a concrete
normalized program whose only field carries `payer = authority`, and at a
concrete account struct with no has_one/belongs_to constraints. -/
theorem payer_constraint_sets_related_account_witness :
    ((⟨"data", "Account", [], none, ⟨false, false, false, none⟩⟩ :
        NormalizedAccountField).add_constraint
        ⟨"payer", some "authority", false⟩).inferred_info.related_account = some "authority" ∧
    c9Field.inferred_info.related_account ≠ none ∧
    (applyRelUpdates c9RelAcct.fields (relUpdates c9RelAcct))[0]? = c9RelAcct.fields[0]? := by
  refine ⟨payer_constraint_sets_related_account.1 _ "authority" false,
    payer_constraint_sets_related_account.2.1 0 c9Prog c9Out (by decide) c9Acct (by decide)
      c9Field (by decide) (by decide),
    payer_constraint_sets_related_account.2.2 c9RelAcct 0 ?_⟩
  intro i fi fj c hfi hfj hij hc hty hcv
  simp [c9RelAcct] at hfj
  rw [← hfj] at hc
  simp at hc
  rw [hc] at hty
  simp at hty

lemma setRelated_eq_map (fs : List NormalizedAccountField) (k : Nat) (v : String) :
    setRelated fs k v = fs.enum.map fun kf => if kf.1 = k then setRel v kf.2 else kf.2 := rfl

lemma setRel_setRel (v v2 : String) (f : NormalizedAccountField) :
    setRel v2 (setRel v f) = setRel v2 f := rfl

lemma map_enum_snd {β : Type} (h : NormalizedAccountField → β)
    (fs : List NormalizedAccountField) :
    (fs.enum.map fun kf => h kf.2) = fs.map h := by
  have h1 : (fs.enum.map fun kf => h kf.2) = (fs.enum.map Prod.snd).map h := by
    rw [List.map_map]; rfl
  rw [h1, List.enum_map_snd]

lemma setRelated_map {β : Type} (h : NormalizedAccountField → β)
    (hh : ∀ f v, h (setRel v f) = h f)
    (fs : List NormalizedAccountField) (k : Nat) (v : String) :
    (setRelated fs k v).map h = fs.map h := by
  rw [setRelated_eq_map, List.map_map]
  have h2 : (h ∘ fun kf => if kf.1 = k then setRel v kf.2 else kf.2)
      = fun (kf : Nat × NormalizedAccountField) => h kf.2 := by
    funext kf
    by_cases hk : kf.1 = k <;> simp [hk, hh]
  rw [h2, map_enum_snd]

lemma applyRel_map {β : Type} (h : NormalizedAccountField → β)
    (hh : ∀ f v, h (setRel v f) = h f) (upds : List (Nat × String)) :
    ∀ fs, (applyRelUpdates fs upds).map h = fs.map h := by
  induction upds with
  | nil => intro fs; rfl
  | cons u rest ih =>
    intro fs
    have hstep : applyRelUpdates fs (u :: rest)
        = applyRelUpdates (setRelated fs u.1 u.2) rest := rfl
    rw [hstep, ih, setRelated_map h hh]

lemma setRelated_getElem?_self (fs : List NormalizedAccountField) (k : Nat) (v : String) :
    (setRelated fs k v)[k]? = fs[k]?.map (setRel v) := by
  rw [setRelated_eq_map, List.getElem?_map, List.getElem?_enum]
  cases hj : fs[k]? <;> simp [hj]

lemma applyRel_getElem? (upds : List (Nat × String)) :
    ∀ (fs : List NormalizedAccountField) (j : Nat),
      (applyRelUpdates fs upds)[j]? =
        match (upds.filter (fun x => x.1 = j)).getLast? with
        | some kv => fs[j]?.map (setRel kv.2)
        | none => fs[j]? := by
  induction upds with
  | nil => intro fs j; rfl
  | cons u rest ih =>
    intro fs j
    have hstep : applyRelUpdates fs (u :: rest)
        = applyRelUpdates (setRelated fs u.1 u.2) rest := rfl
    rw [hstep, ih]
    by_cases hk : u.1 = j
    · rw [List.filter_cons, if_pos (by simpa using hk)]
      rw [getLast?_cons_or]
      subst hk
      cases hl : (rest.filter (fun x => x.1 = u.1)).getLast? with
      | none =>
        dsimp only
        rw [setRelated_getElem?_self]
      | some kv =>
        dsimp only
        rw [setRelated_getElem?_self]
        cases hj : fs[u.1]? <;> simp [hj, setRel_setRel]
    · rw [List.filter_cons, if_neg (by simpa using hk)]
      rw [setRelated_getElem?_ne fs u.1 u.2 j hk]

lemma applyRel_idem (upds : List (Nat × String)) (fs : List NormalizedAccountField) :
    applyRelUpdates (applyRelUpdates fs upds) upds = applyRelUpdates fs upds := by
  apply List.ext_getElem?
  intro j
  rw [applyRel_getElem?, applyRel_getElem?]
  cases hl : (upds.filter (fun x => x.1 = j)).getLast? with
  | none => rfl
  | some kv =>
    dsimp only
    cases hj : fs[j]? <;> simp [hj, setRel_setRel]



lemma projF_setRel (f : NormalizedAccountField) (v : String) :
    projF (setRel v f) = projF f := rfl

lemma relUpdates_eq_P (a : NormalizedAccountStruct) :
    relUpdates a = relUpdatesP (a.fields.map projF) := by
  unfold relUpdates relUpdatesP
  rw [List.enum_map, List.flatMap_map]
  congr 1
  funext fi
  rw [List.flatMap_map]
  rfl

lemma relUpdates_inferRelAcct (a : NormalizedAccountStruct) :
    relUpdates (inferRelAcct a) = relUpdates a := by
  rw [relUpdates_eq_P, relUpdates_eq_P]
  unfold inferRelAcct
  dsimp only
  rw [applyRel_map projF projF_setRel]

lemma inferRelAcct_idem (a : NormalizedAccountStruct) :
    inferRelAcct (inferRelAcct a) = inferRelAcct a := by
  unfold inferRelAcct
  dsimp only
  rw [show relUpdates { a with fields := applyRelUpdates a.fields (relUpdates a) }
      = relUpdates a from relUpdates_inferRelAcct a]
  rw [applyRel_idem]

lemma infer_account_relationships_idem (p : NormalizedProgram) :
    infer_account_relationships (infer_account_relationships p)
      = infer_account_relationships p := by
  unfold infer_account_relationships
  dsimp only
  rw [List.map_map]
  have h : inferRelAcct ∘ inferRelAcct = inferRelAcct := by
    funext a; exact inferRelAcct_idem a
  rw [h]



lemma add_constraint_name (f : NormalizedAccountField) (c : NormalizedConstraint) :
    (f.add_constraint c).name = f.name := rfl

lemma add_constraint_ty (f : NormalizedAccountField) (c : NormalizedConstraint) :
    (f.add_constraint c).ty = f.ty := rfl

lemma foldl_add_name (cs : List NormalizedConstraint) :
    ∀ f, (cs.foldl NormalizedAccountField.add_constraint f).name = f.name := by
  induction cs with
  | nil => intro f; rfl
  | cons c rest ih => intro f; rw [List.foldl_cons, ih, add_constraint_name]

lemma foldl_add_ty (cs : List NormalizedConstraint) :
    ∀ f, (cs.foldl NormalizedAccountField.add_constraint f).ty = f.ty := by
  induction cs with
  | nil => intro f; rfl
  | cons c rest ih => intro f; rw [List.foldl_cons, ih, add_constraint_ty]

lemma fieldStep_name (f : NormalizedAccountField) : (inferFieldStep f).name = f.name :=
  foldl_add_name _ f

lemma fieldStep_ty (f : NormalizedAccountField) : (inferFieldStep f).ty = f.ty :=
  foldl_add_ty _ f

lemma fieldStep_constraints (f : NormalizedAccountField) :
    (inferFieldStep f).constraints = f.constraints ++ fieldConstraintsToAdd f :=
  foldl_add_constraint_constraints _ f

lemma toAdd_mem_types (f : NormalizedAccountField) :
    ∀ c ∈ fieldConstraintsToAdd f,
      (c.constraint_type = "signer" ∨ c.constraint_type = "mut") ∧ c.value = none := by
  intro c hc
  unfold fieldConstraintsToAdd at hc
  rcases List.mem_append.1 hc with h | h <;> split_ifs at h <;> simp_all

lemma fieldStep_hasConstraint (f : NormalizedAccountField) (t : String)
    (h1 : t ≠ "signer") (h2 : t ≠ "mut") :
    (inferFieldStep f).hasConstraint t = f.hasConstraint t := by
  unfold NormalizedAccountField.hasConstraint
  rw [fieldStep_constraints, List.any_append]
  have hz : (fieldConstraintsToAdd f).any (fun c => c.constraint_type = t) = false := by
    rw [List.any_eq_false]
    intro c hc
    rcases (toAdd_mem_types f c hc).1 with h | h <;> simp [h, Ne.symm h1, Ne.symm h2]
  rw [hz, Bool.or_false]

lemma fieldStep_find_none (f : NormalizedAccountField) (t : String)
    (h1 : t ≠ "signer") (h2 : t ≠ "mut") :
    (inferFieldStep f).constraints.find? (fun c => c.constraint_type = t)
      = f.constraints.find? (fun c => c.constraint_type = t) := by
  rw [fieldStep_constraints, List.find?_append]
  have hz : (fieldConstraintsToAdd f).find? (fun c => c.constraint_type = t) = none := by
    rw [List.find?_eq_none]
    intro c hc
    rcases (toAdd_mem_types f c hc).1 with h | h <;> simp [h, Ne.symm h1, Ne.symm h2]
  rw [hz, Option.or_none]

lemma fieldStep_has_of_has (f : NormalizedAccountField) (t : String)
    (h : f.hasConstraint t = true) : (inferFieldStep f).hasConstraint t = true := by
  unfold NormalizedAccountField.hasConstraint at h ⊢
  rw [fieldStep_constraints, List.any_append, h, Bool.true_or]

lemma toAdd_fieldStep (f : NormalizedAccountField) :
    fieldConstraintsToAdd (inferFieldStep f) = [] := by
  have h1 : ¬(((inferFieldStep f).name = "authority" ∨ (inferFieldStep f).name = "owner"
      ∨ (inferFieldStep f).name = "admin")
      ∧ ¬ (inferFieldStep f).hasConstraint "signer"
      ∧ containsSub (inferFieldStep f).ty.data "Signer".data) := by
    rw [fieldStep_name, fieldStep_ty]
    rintro ⟨hn, hs, hty⟩
    by_cases hsf : f.hasConstraint "signer"
    · exact hs (by rw [fieldStep_has_of_has f _ hsf])
    · have hcond : (f.name = "authority" ∨ f.name = "owner" ∨ f.name = "admin")
          ∧ ¬ f.hasConstraint "signer" ∧ containsSub f.ty.data "Signer".data :=
        ⟨hn, by simpa using hsf, hty⟩
      have hmem : (⟨"signer", none, true⟩ : NormalizedConstraint)
          ∈ fieldConstraintsToAdd f := by
        unfold fieldConstraintsToAdd
        rw [if_pos hcond]
        exact List.mem_append_left _ (List.mem_singleton.2 rfl)
      apply hs
      unfold NormalizedAccountField.hasConstraint
      rw [List.any_eq_true]
      refine ⟨⟨"signer", none, true⟩, ?_, by simp⟩
      rw [fieldStep_constraints]
      exact List.mem_append_right _ hmem
  have h2 : ¬((inferFieldStep f).hasConstraint "init"
      ∧ ¬ (inferFieldStep f).hasConstraint "mut") := by
    rintro ⟨hi, hm⟩
    rw [fieldStep_hasConstraint f "init" (by simp) (by simp)] at hi
    by_cases hmf : f.hasConstraint "mut"
    · exact hm (by rw [fieldStep_has_of_has f _ hmf])
    · have hcond : f.hasConstraint "init" ∧ ¬ f.hasConstraint "mut" :=
        ⟨hi, by simpa using hmf⟩
      have hmem : (⟨"mut", none, true⟩ : NormalizedConstraint)
          ∈ fieldConstraintsToAdd f := by
        unfold fieldConstraintsToAdd
        rw [if_pos hcond]
        exact List.mem_append_right _ (List.mem_singleton.2 rfl)
      apply hm
      unfold NormalizedAccountField.hasConstraint
      rw [List.any_eq_true]
      refine ⟨⟨"mut", none, true⟩, ?_, by simp⟩
      rw [fieldStep_constraints]
      exact List.mem_append_right _ hmem
  unfold fieldConstraintsToAdd
  rw [if_neg h1, if_neg h2]
  rfl

lemma toAdd_congr {f g : NormalizedAccountField} (h : projF f = projF g) :
    fieldConstraintsToAdd f = fieldConstraintsToAdd g := by
  have hn : f.name = g.name := congrArg (fun x => x.1) h
  have hty : f.ty = g.ty := congrArg (fun x => x.2.1) h
  have hcs : f.constraints = g.constraints := congrArg (fun x => x.2.2) h
  unfold fieldConstraintsToAdd NormalizedAccountField.hasConstraint
  rw [hn, hty, hcs]

lemma inferFieldStep_of_toAdd_nil {g : NormalizedAccountField}
    (h : fieldConstraintsToAdd g = []) : inferFieldStep g = g := by
  unfold inferFieldStep
  rw [h]
  rfl

lemma keyB (a : NormalizedAccountStruct) :
    inferFieldsAcct (inferRelAcct (inferFieldsAcct a)) = inferRelAcct (inferFieldsAcct a) := by
  unfold inferFieldsAcct inferRelAcct
  dsimp only
  have h : ∀ g ∈ applyRelUpdates (a.fields.map inferFieldStep)
      (relUpdates { a with fields := a.fields.map inferFieldStep }),
      inferFieldStep g = g := by
    intro g hg
    have hmem : projF g ∈ (applyRelUpdates (a.fields.map inferFieldStep)
        (relUpdates { a with fields := a.fields.map inferFieldStep })).map projF :=
      List.mem_map_of_mem projF hg
    rw [applyRel_map projF projF_setRel] at hmem
    obtain ⟨f2, hf2, hpf⟩ := List.mem_map.1 hmem
    obtain ⟨f0, _, rfl⟩ := List.mem_map.1 hf2
    apply inferFieldStep_of_toAdd_nil
    rw [toAdd_congr (hpf.symm ▸ rfl : projF g = projF (inferFieldStep f0))]
    exact toAdd_fieldStep f0
  have h2 := List.map_congr_left h
  rw [h2, List.map_id']



lemma projOps_setRel (f : NormalizedAccountField) (v : String) :
    projOps (setRel v f) = projOps f := rfl

lemma inferInitOps_eq_view (a : NormalizedAccountStruct) :
    inferInitOps a = (a.fields.map projOps).filterMap
      (fun v => if v.2.1 then some (.Initialize v.1 v.2.2.1) else none) := by
  unfold inferInitOps
  rw [List.filterMap_map]
  rfl

lemma find_field_eq_view (a : NormalizedAccountStruct) (nm : String) :
    ((a.fields.map projOps).any (fun v => v.1 = nm)) = (a.find_field nm).isSome := by
  unfold NormalizedAccountStruct.find_field
  cases hf : a.fields.find? (fun f => f.name = nm) with
  | some f =>
    simp only [Option.isSome_some]
    rw [List.any_eq_true]
    refine ⟨projOps f, List.mem_map_of_mem projOps (List.mem_of_find?_eq_some hf), ?_⟩
    have hp := List.find?_some hf
    simpa [projOps] using hp
  | none =>
    simp only [Option.isSome_none]
    rw [List.any_eq_false]
    intro v hv
    obtain ⟨f, hmem, rfl⟩ := List.mem_map.1 hv
    have := List.find?_eq_none.1 hf f hmem
    simpa [projOps] using this

lemma ops_eq_view (ins : NormalizedInstruction) (a : NormalizedAccountStruct) :
    infer_operations_from_account ins a = opsFromView ins.name (a.fields.map projOps) := by
  unfold infer_operations_from_account opsFromView
  rw [← inferInitOps_eq_view]
  congr 1
  unfold inferNameOps
  by_cases h1 : ins.name = "initialize" ∨ ins.name = "init" ∨ ins.name = "create"
  · rw [if_pos h1, if_pos h1]
  · rw [if_neg h1, if_neg h1]
    by_cases h2 : ins.name = "transfer" ∨ ins.name = "send"
    · rw [if_pos h2, if_pos h2]
      rw [find_field_eq_view, find_field_eq_view]
      cases hf : a.find_field "from" with
      | none => simp
      | some fromF =>
        cases ht : a.find_field "to" with
        | none => simp
        | some toF =>
          have hfn : fromF.name = "from" := by
            have := List.find?_some hf
            simpa using this
          have htn : toF.name = "to" := by
            have := List.find?_some ht
            simpa using this
          simp [hfn, htn]
    · rw [if_neg h2, if_neg h2]
      by_cases h3 : ins.name = "close"
      · rw [if_pos h3, if_pos h3]
        rw [List.find?_map]
        have hcomp : ((fun (v : String × Bool × String × Bool × String) => v.2.2.2.1) ∘ projOps)
            = fun (f : NormalizedAccountField) => f.hasConstraint "close" := rfl
        rw [hcomp]
        cases hf : a.fields.find? (fun f => f.hasConstraint "close") <;> rfl
      · rw [if_neg h3, if_neg h3]

lemma projOps_fieldStep (f : NormalizedAccountField) : projOps (inferFieldStep f) = projOps f := by
  unfold projOps
  rw [fieldStep_name]
  rw [fieldStep_hasConstraint f "init" (by simp) (by simp)]
  rw [fieldStep_hasConstraint f "close" (by simp) (by simp)]
  have hp : payerOf (inferFieldStep f) = payerOf f := by
    unfold payerOf
    rw [fieldStep_find_none f "payer" (by simp) (by simp)]
  have hc : closeRefund (inferFieldStep f) = closeRefund f := by
    unfold closeRefund
    rw [fieldStep_find_none f "close" (by simp) (by simp)]
  rw [hp, hc]

lemma view_CRCF (a : NormalizedAccountStruct) :
    ((inferRelAcct (inferFieldsAcct a)).fields.map projOps) = a.fields.map projOps := by
  unfold inferRelAcct inferFieldsAcct
  dsimp only
  rw [applyRel_map projOps projOps_setRel, List.map_map]
  apply List.map_congr_left
  intro f _
  exact projOps_fieldStep f

lemma ops_congr_CRCF (ins : NormalizedInstruction) (a : NormalizedAccountStruct) :
    infer_operations_from_account ins (inferRelAcct (inferFieldsAcct a))
      = infer_operations_from_account ins a := by
  rw [ops_eq_view, ops_eq_view, view_CRCF]

lemma find_map_name_preserving (F : NormalizedAccountStruct → NormalizedAccountStruct)
    (hF : ∀ a, (F a).name = a.name) (l : List NormalizedAccountStruct) (nm : String) :
    (l.map F).find? (fun a => a.name = nm) = (l.find? (fun a => a.name = nm)).map F := by
  rw [List.find?_map]
  have hp : ((fun (a : NormalizedAccountStruct) => decide (a.name = nm)) ∘ F)
      = fun (a : NormalizedAccountStruct) => decide (a.name = nm) := by
    funext a
    simp [Function.comp, hF]
  rw [hp]

lemma keyA {x y : NormalizedProgram}
    (hy : y.account_structs = (x.account_structs.map inferFieldsAcct).map inferRelAcct)
    (ins : NormalizedInstruction) :
    inferInstrStep y (inferInstrStep x ins) = inferInstrStep x ins := by
  have hfind : ∀ nm, y.find_account_struct nm
      = (x.find_account_struct nm).map (inferRelAcct ∘ inferFieldsAcct) := by
    intro nm
    unfold NormalizedProgram.find_account_struct
    rw [hy, List.map_map]
    exact find_map_name_preserving (inferRelAcct ∘ inferFieldsAcct) (fun a => rfl)
      x.account_structs nm
  rcases hb : ins.body with _ | b
  case none =>
    rcases href : ins.account_struct_name with _ | nm
    · have hx : inferInstrStep x ins = ins := by
        simp only [inferInstrStep, hb, href]
      rw [hx]
      simp only [inferInstrStep, hb, href]
    · rcases hfd : x.find_account_struct nm with _ | acct
      · have hx : inferInstrStep x ins = ins := by
          simp only [inferInstrStep, hb, href, hfd]
        rw [hx]
        simp only [inferInstrStep, hb, href, hfind, hfd, Option.map_none']
      · by_cases hops : infer_operations_from_account ins acct = []
        · have hx : inferInstrStep x ins = ins := by
            simp only [inferInstrStep, hb, href, hfd]
            rw [if_pos hops]
          rw [hx]
          simp only [inferInstrStep, hb, href, hfind, hfd, Option.map_some', Function.comp_apply]
          rw [ops_congr_CRCF, if_pos hops]
        · have hx : inferInstrStep x ins
              = { ins with body := some (.basic (infer_operations_from_account ins acct)) } := by
            simp only [inferInstrStep, hb, href, hfd]
            rw [if_neg hops]
          rw [hx]
          simp only [inferInstrStep]
  case some =>
    rcases b with _ | ops
    case unknown =>
      rcases href : ins.account_struct_name with _ | nm
      · have hx : inferInstrStep x ins = ins := by
          simp only [inferInstrStep, hb, href]
        rw [hx]
        simp only [inferInstrStep, hb, href]
      · rcases hfd : x.find_account_struct nm with _ | acct
        · have hx : inferInstrStep x ins = ins := by
            simp only [inferInstrStep, hb, href, hfd]
          rw [hx]
          simp only [inferInstrStep, hb, href, hfind, hfd, Option.map_none']
        · by_cases hops : infer_operations_from_account ins acct = []
          · have hx : inferInstrStep x ins = ins := by
              simp only [inferInstrStep, hb, href, hfd]
              rw [if_pos hops]
            rw [hx]
            simp only [inferInstrStep, hb, href, hfind, hfd, Option.map_some', Function.comp_apply]
            rw [ops_congr_CRCF, if_pos hops]
          · have hx : inferInstrStep x ins
                = { ins with body := some (.basic (infer_operations_from_account ins acct)) } := by
              simp only [inferInstrStep, hb, href, hfd]
              rw [if_neg hops]
            rw [hx]
            simp only [inferInstrStep]
    case basic =>
      have hx : inferInstrStep x ins = ins := by
        simp only [inferInstrStep, hb]
      rw [hx]
      simp only [inferInstrStep, hb]



lemma infer_eq_record (q : NormalizedProgram) :
    infer_missing_semantics q = { q with
      modules := q.modules.map (inferOpsModule q),
      account_structs := (q.account_structs.map inferFieldsAcct).map inferRelAcct } := rfl

lemma map_CRCF_idem (l : List NormalizedAccountStruct) :
    ((((l.map inferFieldsAcct).map inferRelAcct).map inferFieldsAcct).map inferRelAcct)
      = (l.map inferFieldsAcct).map inferRelAcct := by
  induction l with
  | nil => rfl
  | cons a t ih =>
    simp only [List.map_cons]
    rw [keyB a, inferRelAcct_idem (inferFieldsAcct a)]
    rw [show ((((t.map inferFieldsAcct).map inferRelAcct).map inferFieldsAcct).map inferRelAcct)
        = (t.map inferFieldsAcct).map inferRelAcct from by
      simpa using ih]

lemma infer_idem (x : NormalizedProgram) :
    infer_missing_semantics (infer_missing_semantics x) = infer_missing_semantics x := by
  have hy : (infer_missing_semantics x).account_structs
      = (x.account_structs.map inferFieldsAcct).map inferRelAcct := rfl
  have hmod : (infer_missing_semantics x).modules = x.modules.map (inferOpsModule x) := rfl
  have hstructs : ((infer_missing_semantics x).account_structs.map inferFieldsAcct).map
      inferRelAcct = (infer_missing_semantics x).account_structs := by
    rw [hy, map_CRCF_idem]
  have hmods : (infer_missing_semantics x).modules.map
      (inferOpsModule (infer_missing_semantics x)) = (infer_missing_semantics x).modules := by
    rw [hmod, List.map_map]
    apply List.map_congr_left
    intro m _
    show inferOpsModule (infer_missing_semantics x) (inferOpsModule x m) = inferOpsModule x m
    unfold inferOpsModule
    dsimp only
    rw [List.map_map]
    congr 1
    apply List.map_congr_left
    intro ins _
    exact keyA rfl ins
  rw [infer_eq_record (infer_missing_semantics x), hmods, hstructs]

lemma infer_vi (q : NormalizedProgram) (v : List ValidationIssue) :
    infer_missing_semantics { q with validation_issues := v }
      = { infer_missing_semantics q with validation_issues := v } := rfl

lemma validate_program_eq (q : NormalizedProgram) :
    validate_program q =
      { q with validation_issues :=
          q.validation_issues ++ validate_unique_account_names q
            ++ validate_instruction_references q ++ validate_field_types q
            ++ validate_visibility q } := rfl

/-- C6: inference is idempotent on every normalizer output — re-applying the
three inference passes (operation inference, field-constraint inference,
relationship inference) to a `NormalizedProgram` produced by a successful
`normalize_program` changes nothing: no new operations, no new constraints,
identical related-account values. -/
theorem inference_idempotent_on_normalized :
    ∀ (t : Int) (p : Program) (n : NormalizedProgram),
      normalize_program t p = .ok n → infer_missing_semantics n = n := by
  intro t p n h
  unfold normalize_program at h
  cases hx : extract_program_name p with
  | error e => rw [hx] at h; exact absurd h (by simp)
  | ok name =>
    rw [hx] at h
    simp only [Except.ok.injEq] at h
    subst h
    rw [validate_program_eq, infer_vi, infer_idem]



/-- C6 witness: the theorem applied at a concrete program that exercises
all three passes (an inferred Initialize operation, inferred signer and mut
constraints, and a payer-derived related account). -/
theorem inference_idempotent_on_normalized_witness :
    infer_missing_semantics c6Out = c6Out :=
  inference_idempotent_on_normalized 0 c6Prog c6Out (by decide)

end Stylus
